import Mathlib

/-!
# Verification of the kruda in-memory tabular data engine

Shallow embedding, in Lean 4, of the parts of the kruda source that the
specification's claims are about:

* the filter expression compiler (`FilterProcessor._generateExpressionTester`,
  `_generateClauseTester`, `_generateRuleTester` in `src/data/filter/Filter.js`),
* the bounded byte-string operations (`src/data/types/ByteString.js`),
* the parallel filter row/result counters (`FilterProcessor.process` and
  `Filter.run`),
* the binary table header writer and parser (`Header.buildBinaryHeader` in
  `src/data/table/Header.js` and `src/data/table/Column.js`),
* the row cursor and proxy row cursor (`src/data/table/Row.js`,
  `src/data/proxy/ProxyRow.js`, `src/data/proxy/ProxyTable.js`),
* the heap allocator (`src/core/Heap.js`).

JavaScript numbers are modelled by `Nat` (all quantities involved are
non-negative integers below 2^32 in reachable configurations); byte and word
memories are modelled as functions `Nat → Nat`; code that throws in debug
builds is modelled with `Option`.
-/

namespace Kruda

/-! ## Filter expression testers

From `FilterProcessor` in `src/data/filter/Filter.js` (the current version,
which takes a `mode` argument) and `src/data/filter/FilterExpressionMode.js`.

A filter expression is a list of clauses, a clause is a list of rules.  The
evaluation of one rule against the current row is abstracted by a function
`evalRule : α → Bool` (rule testers are compiled separately, see
`generateRuleTester` below); the clause/expression combinators below follow
the loops of `_generateClauseTester` and `_generateExpressionTester`.
-/

/-- `FilterExpressionMode`: the enum has four keys but only the two distinct
string values `'dnf'` and `'cnf'`; `_generateExpressionTester` treats
`DNF`/`disjunctiveNormalForm` as disjunctive and everything else as
conjunctive, so a two-valued type is a faithful model. -/
inductive Mode where
  | dnf : Mode
  | cnf : Mode
deriving DecidableEq, Repr

/-- `FilterProcessor._generateClauseTester`: in DNF mode the returned closure
(`ruleTesterDNF`) returns `false` as soon as one rule tester fails and `true`
after the loop, i.e. a conjunction; in CNF mode (`ruleTesterCNF`) it returns
`true` as soon as one rule tester passes and `false` after the loop, i.e. a
disjunction. -/
def generateClauseTester (mode : Mode) (evalRule : α → Bool) (clause : List α) : Bool :=
  match mode with
  | .dnf => clause.all evalRule
  | .cnf => clause.any evalRule

/-- `FilterProcessor._generateExpressionTester`: a missing or empty expression
yields the constant-true tester (`filterTesterEmpty`); otherwise in DNF mode
the expression is an OR of its clause testers (`filterTesterDNF`) and in CNF
mode an AND of them (`filterTesterCNF`). -/
def generateExpressionTester (mode : Mode) (evalRule : α → Bool)
    (expression : List (List α)) : Bool :=
  if expression.isEmpty then
    true
  else
    match mode with
    | .dnf => expression.any (generateClauseTester mode evalRule)
    | .cnf => expression.all (generateClauseTester mode evalRule)

/-- C2: For every compiled filter expression and every row: in DNF mode the
predicate is true iff at least one clause has all of its rules true (OR of
ANDs); in CNF mode it is true iff every clause has at least one rule true
(AND of ORs); and for an empty or missing expression the predicate is the
constant true for every row regardless of mode. -/
theorem C2_expression_tester_dnf_cnf (evalRule : α → Bool) (expression : List (List α)) :
    (∀ mode, generateExpressionTester mode evalRule [] = true)
    ∧ (expression ≠ [] →
        (generateExpressionTester .dnf evalRule expression = true ↔
          ∃ clause ∈ expression, ∀ rule ∈ clause, evalRule rule = true))
    ∧ (expression ≠ [] →
        (generateExpressionTester .cnf evalRule expression = true ↔
          ∀ clause ∈ expression, ∃ rule ∈ clause, evalRule rule = true)) := by
  refine ⟨fun mode => rfl, fun h => ?_, fun h => ?_⟩
  · simp [generateExpressionTester, List.isEmpty_iff, h, generateClauseTester,
      List.any_eq_true, List.all_eq_true]
  · simp [generateExpressionTester, List.isEmpty_iff, h, generateClauseTester,
      List.any_eq_true, List.all_eq_true]

/-- Witness for `C2_expression_tester_dnf_cnf` at a concrete expression:
the two-clause expression `[[true-rule, false-rule], [false-rule]]` over rules
evaluated by the identity. -/
theorem C2_expression_tester_dnf_cnf_witness :
    (generateExpressionTester .dnf id [[true, false], [false]] = true ↔
      ∃ clause ∈ [[true, false], [false]], ∀ rule ∈ clause, id rule = true) := by
  have h := (C2_expression_tester_dnf_cnf id [[true, false], [false]]).2.1 (by decide)
  exact h

/-! ## Bounded byte-strings

From `ByteStringBase` in `src/data/types/ByteString.js`.  A byte string is
modelled by the list of its content character codes (the bytes following the
1-byte length prefix); `charCodeAt i` becomes `List.getD i 0` (a JavaScript
read outside the string content yields the zero bytes of the string's
4-byte-aligned buffer). -/

/-- `ByteStringBase._toLower`: folds only the ASCII codes of `A`..`Z`
(65..90) by adding 32. -/
def toLower (c : ℕ) : ℕ :=
  if 65 ≤ c ∧ c ≤ 90 then c + 32 else c

/-- `ByteStringBase.equalsCase` (case-insensitive equality, despite the
name): `false` on differing lengths without reading any character, otherwise
a pointwise comparison of `_toLower`-folded codes. -/
def equalsCase (self other : List ℕ) : Bool :=
  if other.length ≠ self.length then
    false
  else
    (List.range self.length).all fun i =>
      toLower (other.getD i 0) == toLower (self.getD i 0)

/-- `ByteStringBase.containsCase` (case-insensitive substring scan): the
naive scan; at each start position `i` below `1 + self.length - other.length`
the first codes are compared folded, then the inner loop walks `ii` over
`[1, other.length)` and the position matches when `ii` reaches
`other.length` (so an empty `other` never matches: the inner loop leaves
`ii = 1 ≠ 0`). -/
def containsCase (self other : List ℕ) : Bool :=
  let nn := other.length
  (List.range (1 + self.length - nn)).any fun i =>
    (toLower (self.getD i 0) == toLower (other.getD 0 0)) &&
      (decide (nn ≠ 0) &&
        (List.range' 1 (nn - 1)).all fun ii =>
          toLower (self.getD (i + ii) 0) == toLower (other.getD ii 0))

/-- `ByteString.fromString`: copies at most 255 characters of the given
string into a fresh buffer. -/
def fromString (s : List ℕ) : List ℕ :=
  s.take 255

/-- A filter rule on a `ByteString` column, packaged as its operation from
the `FilterOperation` enum (`src/data/filter/FilterOperation.js`) together
with its `value` (a list of strings for `in`/`not_in`, a single string
otherwise). -/
inductive StringRule where
  | contains (value : List ℕ)
  | notContains (value : List ℕ)
  | opIn (values : List (List ℕ))
  | opNotIn (values : List (List ℕ))
  | equal (value : List ℕ)
  | notEqual (value : List ℕ)
  | greaterThan (value : List ℕ)
  | greaterThanOrEqual (value : List ℕ)
  | lessThan (value : List ℕ)
  | lessThanOrEqual (value : List ℕ)
  | startsWith (value : List ℕ)
  | endsWith (value : List ℕ)

/-- Result of compiling one rule: either a closure comparing the field's
byte-string (the branches of `_generateRuleTester` that compare strings), or
a marker for the four ordering branches, which convert the rule value with
`parseFloat` and compare numbers — they perform no string comparison, which
is all the claims about the rule compiler need from them. -/
inductive CompiledTester where
  | strTest (f : List ℕ → Bool)
  | numTest (value : List ℕ)

/-- `FilterProcessor._generateRuleTester` for a rule on a `ByteString`
column: the `switch` over `rule.operation`.  `starts_with` and `ends_with`
have no case and fall through to `default`, so the function returns `null`
(`none`). -/
def generateRuleTester : StringRule → Option CompiledTester
  | .contains v => some (.strTest fun field => containsCase field (fromString v))
  | .notContains v => some (.strTest fun field => !containsCase field (fromString v))
  | .opIn vs => some (.strTest fun field => (vs.map fromString).any fun v => equalsCase field v)
  | .opNotIn vs => some (.strTest fun field => !(vs.map fromString).any fun v => equalsCase field v)
  | .equal v => some (.strTest fun field => equalsCase field (fromString v))
  | .notEqual v => some (.strTest fun field => !equalsCase field (fromString v))
  | .greaterThan v => some (.numTest v)
  | .greaterThanOrEqual v => some (.numTest v)
  | .lessThan v => some (.numTest v)
  | .lessThanOrEqual v => some (.numTest v)
  | .startsWith _ => none
  | .endsWith _ => none

/-- Membership in the inner-loop index list `range' 1 n`. -/
theorem mem_range_one {ii n : ℕ} : ii ∈ List.range' 1 n ↔ 1 ≤ ii ∧ ii < 1 + n := by
  constructor
  · intro h
    obtain ⟨i, hi, rfl⟩ := List.mem_range'.mp h
    omega
  · intro h
    exact List.mem_range'.mpr ⟨ii - 1, by omega, by omega⟩

/-- `equalsCase` compares the `_toLower` images of its two operands. -/
theorem equalsCase_iff_map (self other : List ℕ) :
    equalsCase self other = true ↔ other.map toLower = self.map toLower := by
  constructor
  · intro h
    unfold equalsCase at h
    by_cases hl : other.length = self.length
    · rw [if_neg (by omega)] at h
      rw [List.all_eq_true] at h
      refine List.ext_getElem (by simp [hl]) fun i h1 h2 => ?_
      have hi : i < self.length := by simpa using h2
      have hio : i < other.length := by omega
      have hh := h i (List.mem_range.mpr hi)
      rw [beq_iff_eq] at hh
      simp only [List.getElem_map]
      rw [List.getD_eq_getElem _ _ hio, List.getD_eq_getElem _ _ hi] at hh
      exact hh
    · rw [if_pos (by omega)] at h
      cases h
  · intro hmap
    have hl : other.length = self.length := by simpa using congrArg List.length hmap
    unfold equalsCase
    rw [if_neg (by omega), List.all_eq_true]
    intro i hi
    rw [List.mem_range] at hi
    rw [beq_iff_eq, List.getD_eq_getElem _ _ (show i < other.length by omega),
      List.getD_eq_getElem _ _ hi]
    have hq := congrArg (fun l => l[i]?) hmap
    simp only [List.getElem?_map] at hq
    rw [List.getElem?_eq_getElem (show i < other.length by omega),
      List.getElem?_eq_getElem hi] at hq
    simpa using hq

/-- `containsCase self other` succeeds exactly when `other` is non-empty and
occurs, `_toLower`-folded, at some position of `self`. -/
theorem containsCase_iff_match (self other : List ℕ) :
    containsCase self other = true ↔
      other ≠ [] ∧ ∃ i, i + other.length ≤ self.length ∧
        ∀ j < other.length, toLower (self.getD (i + j) 0) = toLower (other.getD j 0) := by
  unfold containsCase
  simp only [List.any_eq_true, List.mem_range, List.all_eq_true, mem_range_one,
    beq_iff_eq, Bool.and_eq_true, decide_eq_true_eq]
  constructor
  · rintro ⟨i, hi, h0, hne, hall⟩
    have hlen : other.length ≠ 0 := hne
    refine ⟨fun h => hlen (by simp [h]), i, by omega, fun j hj => ?_⟩
    rcases Nat.eq_zero_or_pos j with rfl | hjpos
    · simpa using h0
    · exact hall j ⟨hjpos, by omega⟩
  · rintro ⟨hne, i, hlen, hall⟩
    have hlen0 : other.length ≠ 0 := by simpa [List.length_eq_zero] using hne
    exact ⟨i, by omega, by simpa using hall 0 (by omega), hlen0,
      fun ii hii => hall ii (by omega)⟩

/-- Lists with the same `_toLower` image have the same length and the same
folded codes at every (defaulted) position below that length. -/
theorem map_toLower_getD {s t : List ℕ} (hmap : s.map toLower = t.map toLower) :
    s.length = t.length ∧
      ∀ j < s.length, toLower (s.getD j 0) = toLower (t.getD j 0) := by
  have hlen : s.length = t.length := by simpa using congrArg List.length hmap
  refine ⟨hlen, fun j hj => ?_⟩
  have := congrArg (fun l => l.getD j 0) hmap
  simpa [List.getD_eq_getElem?_getD, List.getElem?_eq_getElem hj,
    List.getElem?_eq_getElem (hlen ▸ hj)] using this

/-- `equalsCase` only depends on the `_toLower` image of its first operand. -/
theorem equalsCase_congr {s t : List ℕ} (o : List ℕ)
    (hmap : s.map toLower = t.map toLower) :
    equalsCase s o = equalsCase t o := by
  have key : ∀ (a b : List ℕ), a.map toLower = b.map toLower →
      equalsCase a o = true → equalsCase b o = true := by
    intro a b hab ha
    rw [equalsCase_iff_map] at ha ⊢
    rw [ha, hab]
  cases hs : equalsCase s o
  · cases ht : equalsCase t o
    · rfl
    · exact absurd (key t s hmap.symm ht) (by simp [hs])
  · exact (key s t hmap hs).symm

/-- `containsCase` only depends on the `_toLower` image of its first
operand. -/
theorem containsCase_congr {s t : List ℕ} (o : List ℕ)
    (hmap : s.map toLower = t.map toLower) :
    containsCase s o = containsCase t o := by
  have key : ∀ (a b : List ℕ), a.map toLower = b.map toLower →
      containsCase a o = true → containsCase b o = true := by
    intro a b hab hc
    rw [containsCase_iff_match] at hc ⊢
    obtain ⟨hne, i, hle, hall⟩ := hc
    refine ⟨hne, i, (map_toLower_getD hab).1 ▸ hle, fun j hj => ?_⟩
    rw [← (map_toLower_getD hab).2 (i + j) (by omega)]
    exact hall j hj
  cases hs : containsCase s o
  · cases ht : containsCase t o
    · rfl
    · exact absurd (key t s hmap.symm ht) (by simp [hs])
  · exact (key s t hmap hs).symm

/-- C10 (implicit): every string comparison compiled by the rule compiler for
a `ByteString` column — `contains`, `not_contains`, `in`, `not_in`, `equal`,
`not_equal` — is case-insensitive, folding only ASCII `A`–`Z` (adding 32) on
both operands before comparing bytes: (1) `equalsCase` compares the folded
images; (2) the compiled `equal` tester accepts a field iff the folded field
equals the folded rule value; (3) every compiled string tester is invariant
under replacing the field by one with the same folded image (so no
case-sensitive comparison is ever produced); (4) concretely, an `equal` rule
with value `'sea'` matches a field containing `'SEA'`. -/
theorem C10_rule_testers_case_insensitive :
    (∀ self other : List ℕ,
      equalsCase self other = true ↔ other.map toLower = self.map toLower)
    ∧ (∀ (v field : List ℕ) (f : List ℕ → Bool),
        generateRuleTester (.equal v) = some (.strTest f) →
        (f field = true ↔ (fromString v).map toLower = field.map toLower))
    ∧ (∀ (rule : StringRule) (f : List ℕ → Bool) (s t : List ℕ),
        generateRuleTester rule = some (.strTest f) →
        s.map toLower = t.map toLower → f s = f t)
    ∧ (∀ f, generateRuleTester (.equal [115, 101, 97]) = some (.strTest f) →
        f [83, 69, 65] = true) := by
  refine ⟨equalsCase_iff_map, ?_, ?_, ?_⟩
  · intro v field f hf
    cases hf
    rw [equalsCase_iff_map]
  · intro rule f s t hf hmap
    have hany : ∀ vs : List (List ℕ),
        (vs.any fun v => equalsCase s v) = vs.any fun v => equalsCase t v := by
      intro vs
      exact congrArg vs.any (funext fun v => equalsCase_congr v hmap)
    cases rule with
    | contains v =>
      cases hf
      exact containsCase_congr _ hmap
    | notContains v =>
      cases hf
      exact congrArg (!·) (containsCase_congr _ hmap)
    | opIn vs =>
      cases hf
      exact hany _
    | opNotIn vs =>
      cases hf
      exact congrArg (!·) (hany _)
    | equal v =>
      cases hf
      exact equalsCase_congr _ hmap
    | notEqual v =>
      cases hf
      exact congrArg (!·) (equalsCase_congr _ hmap)
    | greaterThan v => cases hf
    | greaterThanOrEqual v => cases hf
    | lessThan v => cases hf
    | lessThanOrEqual v => cases hf
    | startsWith v => cases hf
    | endsWith v => cases hf
  · intro f hf
    cases hf
    decide

/-- Witness for `C10_rule_testers_case_insensitive`: the compiled `equal`
tester for the rule value `'sea'` accepts the field `'SEA'`. -/
theorem C10_rule_testers_case_insensitive_witness :
    (fun field => equalsCase field (fromString [115, 101, 97])) [83, 69, 65] = true :=
  C10_rule_testers_case_insensitive.2.2.2
    (fun field => equalsCase field (fromString [115, 101, 97])) rfl

/-- C8: the `FilterOperation` enum declares `starts_with` and `ends_with`,
but `_generateRuleTester`'s `switch` has no case for either, so compiling
such a rule on a `ByteString` column falls through to `default` and returns
`null` — not a prefix/suffix predicate.  (This contradicts the claim, which
requires a case-sensitive prefix/suffix tester; see also spec §9 open
question 4.) -/
theorem C8_starts_ends_with_yield_null (v : List ℕ) :
    generateRuleTester (.startsWith v) = none ∧
      generateRuleTester (.endsWith v) = none :=
  ⟨rfl, rfl⟩

/-! ## Little-endian byte memory primitives

Shared by the embeddings of `DataView`-based reads and writes
(`src/core/Types.js`) and the binary header (`src/data/table/Header.js`).
Byte memories are functions `ℕ → ℕ` from absolute byte offsets to byte
values. -/

/-- `DataView.getUint32(offset, true)`: little-endian 32-bit load from a byte
memory.  Bytes are masked to 8 bits as a `DataView` would. -/
def readU32LE (m : ℕ → ℕ) (offset : ℕ) : ℕ :=
  m offset % 256 + 256 * (m (offset + 1) % 256) + 256 ^ 2 * (m (offset + 2) % 256)
    + 256 ^ 3 * (m (offset + 3) % 256)

/-- `DataView.setUint32(offset, value, true)`: little-endian 32-bit store
into a byte memory (the stored value is reduced modulo `2^32` as JavaScript's
`ToUint32` does). -/
def setU32LE (m : ℕ → ℕ) (offset value : ℕ) : ℕ → ℕ := fun a =>
  if a = offset then value % 256
  else if a = offset + 1 then value / 256 % 256
  else if a = offset + 2 then value / 256 ^ 2 % 256
  else if a = offset + 3 then value / 256 ^ 3 % 256
  else m a

/-! ## Row field setters (C7)

`Type.set` in `src/core/Types.js` is declared and implemented with parameter
order `(view, value, offset)`, e.g. `_Uint32.set(view, value, offset)` does
`view.setUint32(offset, value, true)`.  `Row._createPropertySetter` in
`src/data/table/Row.js` calls `type.set(pointer.view, pointer.address +
offset, value)` — the address is passed in the `value` slot and the value in
the `offset` slot. -/

/-- `_Uint32.set(view, value, offset)` from `src/core/Types.js`:
`view.setUint32(offset, value, true)`. -/
def uint32set (view : ℕ → ℕ) (value offset : ℕ) : ℕ → ℕ :=
  setU32LE view offset value

/-- `_Uint32.get(view, offset)` from `src/core/Types.js`:
`view.getUint32(offset, true)`. -/
def uint32get (view : ℕ → ℕ) (offset : ℕ) : ℕ :=
  readU32LE view offset

/-- `Row._createPropertySetter`'s `setColumnValue(value)` for a `Uint32`
column (release build): executes `type.set(pointer.view, pointer.address +
offset, value)`, passing the arguments in this exact order to `Type.set`,
whose signature is `(view, value, offset)`. -/
def rowSetColumnValueU32 (view : ℕ → ℕ) (ptrAddress colOffset value : ℕ) : ℕ → ℕ :=
  uint32set view (ptrAddress + colOffset) value

/-- `Row._createPropertyGetter`'s `getColumnValue()` for a `Uint32` column:
`pointer.castValueAt(offset, type)`, i.e. `type.get(view, pointer.address +
offset)`. -/
def rowGetColumnValueU32 (view : ℕ → ℕ) (ptrAddress colOffset : ℕ) : ℕ :=
  uint32get view (ptrAddress + colOffset)

/-- C7: evaluation of the row cursor's `Uint32` setter at a concrete input,
refuting the claim.  On an all-zero memory with the cursor's pointer at
address 16 and the column at in-row offset 0, invoking the setter with value
42 leaves the 4 bytes at address 16 untouched (the getter still returns 0,
not 42) and instead stores the pointer address 16, little-endian, at byte
offset 42 — because `setColumnValue` passes `(view, address, value)` to a
`Type.set` declared `(view, value, offset)`.  A correct setter
(`uint32set view 42 16`) makes the getter return 42. -/
theorem C7_setter_writes_address_at_value :
    rowGetColumnValueU32 (rowSetColumnValueU32 (fun _ => 0) 16 0 42) 16 0 = 0
    ∧ rowGetColumnValueU32 (rowSetColumnValueU32 (fun _ => 0) 16 0 42) 16 0 ≠ 42
    ∧ readU32LE (rowSetColumnValueU32 (fun _ => 0) 16 0 42) 42 = 16
    ∧ uint32get (uint32set (fun _ => 0) 42 16) 16 = 42 := by
  refine ⟨?_, ?_, ?_, ?_⟩ <;> decide

/-! ## Row cursor index bounds check (C9)

`Row.index`'s setter (`src/data/table/Row.js`, debug build) guards with
`if (!value >= this.mTable.rowCount) { throw 'ERROR: Index out of bounds!' }`.
In JavaScript `!value` evaluates first, producing a boolean that is coerced
to `1` (for `value === 0`) or `0` (for any other index) before the `>=`
comparison with `rowCount`.  `ProxyRow.index` and `ProxyTable.getRow` /
`getBinaryRow` use the identical guard. -/

/-- The condition under which `Row.index = value` throws in a debug build:
`(!value as number) >= rowCount`. -/
def rowIndexCheckThrows (rowCount value : ℕ) : Bool :=
  decide ((if value = 0 then 1 else 0) ≥ rowCount)

/-- `Row.index`'s setter (debug build): throws (`none`) when the guard fires,
otherwise records the new index and moves every pointer to
`offset + step * index`. -/
def rowSetIndexChecked (rowCount : ℕ) (ptrs : List (ℕ × ℕ)) (value : ℕ) :
    Option (List ℕ) :=
  if rowIndexCheckThrows rowCount value then
    none
  else
    some (ptrs.map fun p => p.1 + p.2 * value)

/-- C9: evaluation of the row cursor's bounds check, refuting the claim.  On
a table with `rowCount = 2`, setting the cursor index to the out-of-range
value 5 does **not** throw (the guard computes `0 >= 2`) and the pointers are
moved; while on a table with `rowCount = 1`, setting the in-range index 0
**does** throw (the guard computes `1 >= 1`).  The claim requires the
opposite behaviour in both cases. -/
theorem C9_bounds_check_is_broken :
    rowIndexCheckThrows 2 5 = false
    ∧ rowSetIndexChecked 2 [(16, 8)] 5 = some [56]
    ∧ rowIndexCheckThrows 1 0 = true
    ∧ rowSetIndexChecked 1 [(16, 8)] 0 = none := by
  refine ⟨?_, ?_, ?_, ?_⟩ <;> decide

/-! ## Binary table header: writer and parser (C3)

Writer: `Header.buildBinaryHeader` (`src/data/table/Header.js`, the current
version with `kHeaderMetaLength = 28` and `kColumnMetaLength = 16`), which
writes 7 scalar words, then per column the four words `(length, dataOffset,
offset, type)`, then the length-prefixed column names, zero-padded to a
multiple of 4.

Parser: the `Header` constructor together with `Column`
(`src/data/table/Column.js`), which hands each `Column` the byte offset
`28 + 16*i` and reads only **three** consecutive words there: `size` at +0,
`offset` at +4 and `type` at +8. -/

/-- One column of a `HeaderDescriptor` (`ColumnDescriptor` after
`descriptorFromColumns` has normalised it): name character codes, field
length, stripe `dataOffset`, in-row `offset` and binary type index. -/
structure ColumnDesc where
  name : List ℕ
  length : ℕ
  dataOffset : ℕ
  offset : ℕ
  type : ℕ

/-- A `HeaderDescriptor` as consumed by `Header.buildBinaryHeader`. -/
structure HeaderDesc where
  columns : List ColumnDesc
  rowCount : ℕ
  rowLength : ℕ
  rowStep : ℕ
  dataLength : ℕ
  layout : ℕ

/-- The four bytes of `view.setUint32(offset, x, true)`, in memory order. -/
def u32le (x : ℕ) : List ℕ :=
  [x % 256, x / 256 % 256, x / 256 ^ 2 % 256, x / 256 ^ 3 % 256]

/-- The 16-byte column record written by `buildBinaryHeader`'s column loop:
`length`, `dataOffset`, `offset`, `type`. -/
def columnMetaBytes (c : ColumnDesc) : List ℕ :=
  u32le c.length ++ u32le c.dataOffset ++ u32le c.offset ++ u32le c.type

/-- The length-prefixed name written at `nameOffset`: `min(255, length)`
followed by that many character codes. -/
def columnNameBytes (c : ColumnDesc) : List ℕ :=
  min 255 c.name.length :: c.name.take 255

/-- `headerLength`: `(kColumnMetaLength * columnCount + columnNameLength +
kHeaderMetaLength + 3) & ~0x03`. -/
def headerByteLength (h : HeaderDesc) : ℕ :=
  (16 * h.columns.length + (h.columns.map fun c => min 255 c.name.length + 1).sum
      + 28 + 3) / 4 * 4

/-- `Header.buildBinaryHeader`: the full byte buffer.  The writes are
consecutive (`offset` runs from 0 and `nameOffset` starts at
`16 * columnCount + 28`, immediately after the column records), and the
`ArrayBuffer` leaves the remaining padding bytes zero. -/
def buildBinaryHeader (h : HeaderDesc) : List ℕ :=
  let body := u32le (headerByteLength h) ++ u32le h.columns.length
    ++ u32le h.rowCount ++ u32le h.rowLength ++ u32le h.rowStep
    ++ u32le h.dataLength ++ u32le h.layout
    ++ (h.columns.map columnMetaBytes).flatten
    ++ (h.columns.map columnNameBytes).flatten
  body ++ List.replicate (headerByteLength h - body.length) 0

/-- `view.getUint32(o, true)` against a byte buffer. -/
def readU32 (bytes : List ℕ) (o : ℕ) : ℕ :=
  readU32LE (fun a => bytes.getD a 0) o

/-- Parsed header scalars, at the offsets the `Header` constructor assigns
(`mLengthOffset = 0`, `mColumnCountOffset = 4`, `mRowCountOffset = 8`,
`mRowLengthOffset = 12`, `mRowStepOffset = 16`, `mDataLengthOffset = 20`,
`mLayoutOffset = 24`). -/
def parsedHeaderLength (bytes : List ℕ) : ℕ := readU32 bytes 0

/-- `Header.columnCount`. -/
def parsedColumnCount (bytes : List ℕ) : ℕ := readU32 bytes 4

/-- `Header.rowCount`. -/
def parsedRowCount (bytes : List ℕ) : ℕ := readU32 bytes 8

/-- `Header.rowLength`. -/
def parsedRowLength (bytes : List ℕ) : ℕ := readU32 bytes 12

/-- `Header.rowStep`. -/
def parsedRowStep (bytes : List ℕ) : ℕ := readU32 bytes 16

/-- `Header.dataLength`. -/
def parsedDataLength (bytes : List ℕ) : ℕ := readU32 bytes 20

/-- `Header.layout`. -/
def parsedLayout (bytes : List ℕ) : ℕ := readU32 bytes 24

/-- `Column.size` of the `i`-th column: the `Header` constructor passes
`Column` the record offset `28 + 16*i` (it advances by `kColumnMetaLength =
16` per column), and `Column` reads its `mSizeOffset` word at `+0`. -/
def parsedColSize (bytes : List ℕ) (i : ℕ) : ℕ :=
  readU32 bytes (28 + 16 * i)

/-- `Column.offset` of the `i`-th column: `Column` reads its `mOffsetOffset`
word at `+4` of the record — the slot into which `buildBinaryHeader` wrote
`dataOffset`. -/
def parsedColOffset (bytes : List ℕ) (i : ℕ) : ℕ :=
  readU32 bytes (28 + 16 * i + 4)

/-- `Column.type` of the `i`-th column (as a binary type index into
`kBinaryTypes`): `Column` reads its `mTypeOffset` word at `+8` of the record
— the slot into which `buildBinaryHeader` wrote the in-row `offset`. -/
def parsedColTypeIndex (bytes : List ℕ) (i : ℕ) : ℕ :=
  readU32 bytes (28 + 16 * i + 8)

/-- The name offset of the `i`-th column: the constructor starts at
`kColumnMetaLength * columnCount + 28` and advances by `nameLength + 1`. -/
def parsedNameOffset (bytes : List ℕ) : ℕ → ℕ
  | 0 => 16 * parsedColumnCount bytes + 28
  | i + 1 =>
    let o := parsedNameOffset bytes i
    o + bytes.getD o 0 + 1

/-- The name of the `i`-th column as read back through
`ByteString.toString` (length byte, then that many character codes). -/
def parsedColName (bytes : List ℕ) (i : ℕ) : List ℕ :=
  let o := parsedNameOffset bytes i
  (List.range (bytes.getD o 0)).map fun j => bytes.getD (o + 1 + j) 0

/-- The concrete failing descriptor for C3: a row-major table with two
`Uint32` columns, `a` at in-row offset 0 and `b` at in-row offset 4 (both
with `dataOffset = 0`, as `descriptorFromColumns` produces for the
row-major layout). -/
def c3desc : HeaderDesc :=
  { columns :=
      [ { name := [97], length := 4, dataOffset := 0, offset := 0, type := 0 },
        { name := [98], length := 4, dataOffset := 0, offset := 4, type := 0 } ],
    rowCount := 0, rowLength := 8, rowStep := 8, dataLength := 0, layout := 0 }

/-- C3: evaluation of build-then-parse at `c3desc`, refuting the round-trip
claim.  The scalar header fields, each column's size and each column's name
are recovered, but column `b`'s in-row offset accessor returns `0` (the
written `dataOffset` slot) instead of the descriptor's `4`, and its type
accessor returns index `4` (= `Int16`, the written `offset` slot) instead of
the descriptor's `0` (= `Uint32`): the `Column` parser reads three words at
`+0/+4/+8` of a 16-byte record laid out as `(length, dataOffset, offset,
type)`. -/
theorem C3_header_roundtrip_fails :
    parsedHeaderLength (buildBinaryHeader c3desc) = headerByteLength c3desc
    ∧ parsedColumnCount (buildBinaryHeader c3desc) = 2
    ∧ parsedRowCount (buildBinaryHeader c3desc) = c3desc.rowCount
    ∧ parsedRowLength (buildBinaryHeader c3desc) = c3desc.rowLength
    ∧ parsedRowStep (buildBinaryHeader c3desc) = c3desc.rowStep
    ∧ parsedDataLength (buildBinaryHeader c3desc) = c3desc.dataLength
    ∧ parsedLayout (buildBinaryHeader c3desc) = c3desc.layout
    ∧ parsedColSize (buildBinaryHeader c3desc) 1 = 4
    ∧ parsedColName (buildBinaryHeader c3desc) 0 = [97]
    ∧ parsedColName (buildBinaryHeader c3desc) 1 = [98]
    ∧ (c3desc.columns.getD 1 ⟨[], 0, 0, 0, 0⟩).offset = 4
    ∧ parsedColOffset (buildBinaryHeader c3desc) 1 = 0
    ∧ (c3desc.columns.getD 1 ⟨[], 0, 0, 0, 0⟩).type = 0
    ∧ parsedColTypeIndex (buildBinaryHeader c3desc) 1 = 4 := by
  decide

/-! ## Row cursors and proxy rows (C4)

From `Row` (`src/data/table/Row.js`), `ProxyRow`
(`src/data/proxy/ProxyRow.js`) and `ProxyTable`
(`src/data/proxy/ProxyTable.js`), for the row-major (`RELATIONAL`) layout,
in which the cursor holds a single pointer with captured
`offset = table.dataOffset` and `step = header.rowStep`.  Reads are release
semantics (the debug bounds guard is the subject of C9).  The heap byte
memory is `m : ℕ → ℕ`; a pointer bound to a table's `MemoryBlock` reads the
absolute byte `table.memAddr + pointer.address + offset`. -/

/-- A parsed column as the cursor uses it: in-row `offset` and `size`. -/
structure ColumnE where
  offset : ℕ
  size : ℕ

/-- A bound table: memory-block address, `dataOffset` (= header length),
`rowStep`, `rowCount` and columns. -/
structure TableE where
  memAddr : ℕ
  dataOffset : ℕ
  rowStep : ℕ
  rowCount : ℕ
  columns : List ColumnE

/-- The cursor's single pointer record from `Row`'s constructor
(`mPointers[0]`): the captured `offset` and `step`, and the mutable
`pointer.address`. -/
structure PtrE where
  offset : ℕ
  step : ℕ
  addr : ℕ

/-- A row cursor: current index and pointer. -/
structure RowE where
  index : ℕ
  ptr : PtrE

/-- `new Row(table, index)` (row-major): pointer at
`tableOffset + index * step`. -/
def rowMake (tbl : TableE) (index : ℕ) : RowE :=
  { index,
    ptr := { offset := tbl.dataOffset, step := tbl.rowStep,
             addr := tbl.dataOffset + index * tbl.rowStep } }

/-- `Row.index`'s setter (release build): records the index and moves the
pointer to `offset + step * index`, independent of its previous address. -/
def rowSetIndex (r : RowE) (value : ℕ) : RowE :=
  { index := value,
    ptr := { r.ptr with addr := r.ptr.offset + r.ptr.step * value } }

/-- The bytes of field `c` of the cursor's current row: the getter resolves
`pointer.address + column.offset` inside the table's memory block and reads
`column.size` bytes (`castValueAt` for numeric columns, the live
`ByteStringPtr` for strings — all reads go through these bytes). -/
def rowFieldBytes (m : ℕ → ℕ) (tbl : TableE) (r : RowE) (c : ℕ) : List ℕ :=
  let col := tbl.columns.getD c ⟨0, 0⟩
  (List.range col.size).map fun j => m (tbl.memAddr + r.ptr.addr + col.offset + j)

/-- `row.accessors[0].getter()` on an index table whose single column is
`Uint32`: `pointer.castValueAt(offset, Uint32)`. -/
def indexRowValue (m : ℕ → ℕ) (idx : TableE) (r : RowE) : ℕ :=
  readU32LE m (idx.memAddr + r.ptr.addr + (idx.columns.getD 0 ⟨0, 0⟩).offset)

/-- The row index stored in row `k` of the index table (read through a fresh
cursor). -/
def sourceIndex (m : ℕ → ℕ) (idx : TableE) (k : ℕ) : ℕ :=
  indexRowValue m idx (rowMake idx k)

/-- `ProxyRow`: two inner cursors. -/
structure ProxyRowE where
  indexRow : RowE
  sourceRow : RowE

/-- `new ProxyRow(table, index)` (for a proxy with rows): the index cursor at
`index` on the index table, the source cursor at the value of the index
cursor's first accessor on the source table. -/
def proxyRowMake (m : ℕ → ℕ) (src idx : TableE) (index : ℕ) : ProxyRowE :=
  let ir := rowMake idx index
  { indexRow := ir, sourceRow := rowMake src (indexRowValue m idx ir) }

/-- `ProxyRow.index`'s setter (release build): `mIndexRow.index = value;
mSourceRow.index = mIndexRow.accessors[0].getter()`.  `ProxyTable.getRow`
positions a (possibly reused) `ProxyRow` through exactly this setter. -/
def proxyRowSetIndex (m : ℕ → ℕ) (idx : TableE) (p : ProxyRowE) (value : ℕ) :
    ProxyRowE :=
  let ir := rowSetIndex p.indexRow value
  { indexRow := ir, sourceRow := rowSetIndex p.sourceRow (indexRowValue m idx ir) }

/-- C4: for a proxy-eligible filter result wrapped as
`ProxyTable(source, index)` and any proxy row index `k < proxy.rowCount`
(`= index table rowCount`): after moving a proxy cursor to `k`, reading any
field `c` through it returns the same bytes as reading field `c` of the
source table's row at the index stored in row `k` of the index table; and
both inner cursors are repositioned exactly as fresh cursors at `k`
(resp. at the stored index) would be. -/
theorem C4_proxy_row_projects_source (m : ℕ → ℕ) (src idx : TableE) (k k₀ : ℕ)
    (hk : k < idx.rowCount) (c : ℕ) :
    rowFieldBytes m src (proxyRowSetIndex m idx (proxyRowMake m src idx k₀) k).sourceRow c
      = rowFieldBytes m src (rowMake src (sourceIndex m idx k)) c
    ∧ (proxyRowSetIndex m idx (proxyRowMake m src idx k₀) k).indexRow = rowMake idx k
    ∧ (proxyRowSetIndex m idx (proxyRowMake m src idx k₀) k).sourceRow
        = rowMake src (sourceIndex m idx k) := by
  have hidx : (proxyRowSetIndex m idx (proxyRowMake m src idx k₀) k).indexRow
      = rowMake idx k := by
    simp [proxyRowSetIndex, proxyRowMake, rowSetIndex, rowMake, Nat.mul_comm]
  have hsrc : (proxyRowSetIndex m idx (proxyRowMake m src idx k₀) k).sourceRow
      = rowMake src (sourceIndex m idx k) := by
    simp only [proxyRowSetIndex, proxyRowMake, rowSetIndex, rowMake, sourceIndex,
      indexRowValue]
    simp [Nat.mul_comm]
  exact ⟨by rw [hsrc], hidx, hsrc⟩

/-- Witness for `C4_proxy_row_projects_source`: a 2-row index table at
address 100 (data at offset 32, `U32` rows of step 4) whose row 1 stores the
source index 2, and a 3-row source table at address 200 (data at offset 64,
rows of step 8, two `U32` columns); the memory holds byte 2 at the absolute
address 136 (the low byte of index row 1) and zeros elsewhere. -/
theorem C4_proxy_row_projects_source_witness :
    rowFieldBytes (fun a => if a = 136 then 2 else 0)
        ⟨200, 64, 8, 3, [⟨0, 4⟩, ⟨4, 4⟩]⟩
        (proxyRowSetIndex (fun a => if a = 136 then 2 else 0)
          ⟨100, 32, 4, 2, [⟨0, 4⟩]⟩
          (proxyRowMake (fun a => if a = 136 then 2 else 0)
            ⟨200, 64, 8, 3, [⟨0, 4⟩, ⟨4, 4⟩]⟩ ⟨100, 32, 4, 2, [⟨0, 4⟩]⟩ 0) 1).sourceRow 1
      = rowFieldBytes (fun a => if a = 136 then 2 else 0)
          ⟨200, 64, 8, 3, [⟨0, 4⟩, ⟨4, 4⟩]⟩
          (rowMake ⟨200, 64, 8, 3, [⟨0, 4⟩, ⟨4, 4⟩]⟩
            (sourceIndex (fun a => if a = 136 then 2 else 0) ⟨100, 32, 4, 2, [⟨0, 4⟩]⟩ 1)) 1 :=
  (C4_proxy_row_projects_source (fun a => if a = 136 then 2 else 0)
    ⟨200, 64, 8, 3, [⟨0, 4⟩, ⟨4, 4⟩]⟩ ⟨100, 32, 4, 2, [⟨0, 4⟩]⟩ 1 0 (by decide) 1).1

/-! ## The parallel filter run (C1)

From `FilterProcessor.process` (`src/data/filter/Filter.js`): each of the
`W` workers loops `for (i = Atomize.add(indices, 0, batchSize); i < rowCount;
i = Atomize.add(indices, 0, batchSize))`, processing rows `r ∈ [i,
min(i + batchSize, rowCount))`; for each row with `filterTester()` true,
`resultWriter` reserves a result slot with `Atomize.add(indices, 1, 1)`.
`Filter.run` awaits all workers and then reads `indices[1]` as
`resultCount`, writing it into the result header's `rowCount`.

The shared state is the pair of atomic counters `indices[0]` (`next`, the
next row to scan) and `indices[1]` (`slot`, the next result slot, equal to
the number of reservations made so far), plus each worker's private loop
position, modelled as its list of claimed-but-unprocessed rows.  Worker
steps interleave arbitrarily; each step is one atomic counter operation. -/

/-- One worker: either still running (with the rows of its current batch it
has not yet processed — empty when it is about to claim a new batch), or
finished (it claimed a batch start `≥ rowCount` and returned). -/
inductive WStatus where
  | running (pending : List ℕ) : WStatus
  | done : WStatus
deriving DecidableEq, Repr

/-- The shared filter-run state: the two words of the indices block and the
workers. -/
structure Sys where
  next : ℕ
  slot : ℕ
  workers : List WStatus
deriving DecidableEq, Repr

/-- Initial state: both counters zero (`Heap.calloc(8)`), every worker about
to claim its first batch. -/
def Sys.init (workerCount : ℕ) : Sys :=
  { next := 0, slot := 0, workers := List.replicate workerCount (.running []) }

/-- Interleaved small-step semantics of the worker loops.  `claim`: a worker
with an exhausted batch atomically fetches-and-adds `batchSize` to `next`; if
the fetched value is `≥ rowCount` it leaves its loop (`done`), otherwise its
new batch is `[next, min(next + batchSize, rowCount))`.  `work`: a worker
evaluates the predicate on the next row of its batch and, on a match,
atomically increments `slot` (reserving the result slot written by
`resultWriter`). -/
inductive Step (pred : ℕ → Bool) (rowCount batchSize : ℕ) : Sys → Sys → Prop where
  | claim (s : Sys) (i : ℕ) (h : s.workers[i]? = some (.running [])) :
      Step pred rowCount batchSize s
        { next := s.next + batchSize, slot := s.slot,
          workers := s.workers.set i
            (if rowCount ≤ s.next then .done
             else .running (List.range' s.next (min (s.next + batchSize) rowCount - s.next))) }
  | work (s : Sys) (i : ℕ) (r : ℕ) (rest : List ℕ)
      (h : s.workers[i]? = some (.running (r :: rest))) :
      Step pred rowCount batchSize s
        { next := s.next, slot := s.slot + (if pred r then 1 else 0),
          workers := s.workers.set i (.running rest) }

/-- All workers have returned (the `Promise.all` in `Filter.run` has
resolved). -/
def AllDone (s : Sys) : Prop :=
  ∀ w ∈ s.workers, w = WStatus.done

/-- `Filter.run`'s finalisation: `resultCount = indicesPtr.getValueAt(1)`,
stored into the result header's `rowCount`. -/
def finalizeRowCount (s : Sys) : ℕ :=
  s.slot

/-- Matches still pending inside one worker. -/
def wCount (pred : ℕ → Bool) : WStatus → ℕ
  | .running l => l.countP pred
  | .done => 0

/-- Matches still pending across all workers. -/
def pendingMatches (pred : ℕ → Bool) (ws : List WStatus) : ℕ :=
  (ws.map (wCount pred)).sum

theorem pendingMatches_set (pred : ℕ → Bool) :
    ∀ (ws : List WStatus) (i : ℕ) (w v : WStatus), ws[i]? = some w →
      pendingMatches pred (ws.set i v) + wCount pred w
        = pendingMatches pred ws + wCount pred v := by
  intro ws
  induction ws with
  | nil => intro i w v h; simp at h
  | cons a t ih =>
    intro i w v h
    cases i with
    | zero =>
      simp only [List.getElem?_cons_zero, Option.some.injEq] at h
      subst h
      simp only [List.set_cons_zero, pendingMatches, List.map_cons, List.sum_cons]
      omega
    | succ n =>
      simp only [List.getElem?_cons_succ] at h
      have hrec := ih n w v h
      simp only [List.set_cons_succ, pendingMatches, List.map_cons, List.sum_cons]
      simp only [pendingMatches] at hrec
      omega

/-- The run invariant: reservations made plus matches pending equal the
matches among the rows claimed so far (`[0, min next rowCount)`); once some
worker is done, every row of the table has been claimed; the worker count is
fixed. -/
structure SysInv (pred : ℕ → Bool) (rowCount batchSize workerCount : ℕ) (s : Sys) : Prop where
  count_eq : s.slot + pendingMatches pred s.workers
      = (List.range (min s.next rowCount)).countP pred
  done_next : WStatus.done ∈ s.workers → rowCount ≤ s.next
  wlen : s.workers.length = workerCount

theorem sysInv_step {pred : ℕ → Bool} {rowCount batchSize workerCount : ℕ} {s s' : Sys}
    (hinv : SysInv pred rowCount batchSize workerCount s)
    (hstep : Step pred rowCount batchSize s s') :
    SysInv pred rowCount batchSize workerCount s' := by
  obtain ⟨hcount, hdone, hlen⟩ := hinv
  cases hstep with
  | claim i h =>
    by_cases hfull : rowCount ≤ s.next
    · rw [if_pos hfull]
      have hset := pendingMatches_set pred s.workers i _ WStatus.done h
      simp only [wCount, List.countP_nil] at hset
      refine ⟨?_, fun _ => ?_, ?_⟩
      · show s.slot + pendingMatches pred (s.workers.set i WStatus.done)
            = (List.range (min (s.next + batchSize) rowCount)).countP pred
        have hmin : min (s.next + batchSize) rowCount = min s.next rowCount := by omega
        rw [hmin]
        omega
      · show rowCount ≤ s.next + batchSize
        omega
      · show (s.workers.set i WStatus.done).length = workerCount
        simpa using hlen
    · rw [if_neg hfull]
      have hnext : s.next < rowCount := by omega
      have hset := pendingMatches_set pred s.workers i _
        (WStatus.running (List.range' s.next (min (s.next + batchSize) rowCount - s.next))) h
      simp only [wCount, List.countP_nil] at hset
      refine ⟨?_, ?_, ?_⟩
      · show s.slot + pendingMatches pred (s.workers.set i
            (WStatus.running (List.range' s.next (min (s.next + batchSize) rowCount - s.next))))
            = (List.range (min (s.next + batchSize) rowCount)).countP pred
        have hmin1 : min s.next rowCount = s.next := by omega
        have hd : min (s.next + batchSize) rowCount
            = s.next + (min (s.next + batchSize) rowCount - s.next) := by omega
        have hsplit : (List.range (min (s.next + batchSize) rowCount)).countP pred
            = (List.range s.next).countP pred
              + (List.range' s.next (min (s.next + batchSize) rowCount - s.next)).countP pred := by
          conv_lhs => rw [hd]
          rw [List.range_add, List.countP_append, List.range'_eq_map_range]
        rw [hmin1] at hcount
        rw [hsplit]
        omega
      · intro hmem
        show rowCount ≤ s.next + batchSize
        rcases List.mem_or_eq_of_mem_set hmem with hmem' | heq
        · exact le_trans (hdone hmem') (by omega)
        · cases heq
      · show (s.workers.set i _).length = workerCount
        simpa using hlen
  | work i r rest h =>
    have hset := pendingMatches_set pred s.workers i _ (WStatus.running rest) h
    simp only [wCount, List.countP_cons] at hset
    refine ⟨?_, ?_, ?_⟩
    · show s.slot + (if pred r then 1 else 0)
          + pendingMatches pred (s.workers.set i (WStatus.running rest))
          = (List.range (min s.next rowCount)).countP pred
      by_cases hr : pred r <;> simp only [hr, if_true, if_false] at hset ⊢ <;> omega
    · intro hmem
      show rowCount ≤ s.next
      rcases List.mem_or_eq_of_mem_set hmem with hmem' | heq
      · exact hdone hmem'
      · cases heq
    · show (s.workers.set i (WStatus.running rest)).length = workerCount
      simpa using hlen

theorem sysInv_reach {pred : ℕ → Bool} {rowCount batchSize workerCount : ℕ} {s : Sys}
    (hreach : Relation.ReflTransGen (Step pred rowCount batchSize)
      (Sys.init workerCount) s) :
    SysInv pred rowCount batchSize workerCount s := by
  induction hreach with
  | refl =>
    refine ⟨?_, ?_, by simp [Sys.init]⟩
    · have : pendingMatches pred (List.replicate workerCount (.running [])) = 0 := by
        apply List.sum_eq_zero
        intro x hx
        rcases List.mem_map.mp hx with ⟨w, hw, rfl⟩
        rcases List.eq_of_mem_replicate hw with rfl
        rfl
      simp [Sys.init, this]
    · intro hmem
      have := List.eq_of_mem_replicate (show WStatus.done ∈ _ from hmem)
      cases this
  | tail hsteps hstep ih => exact sysInv_step ih hstep

/-- C1: for every table row count, every filter expression and mode, every
batch size and every worker count `≥ 1` (the `Filter` constructor clamps the
count to at least 1): in every complete interleaved execution of the worker
loops, the final value of the result-slot counter (the second word of the
indices block) equals the number of row indices in `[0, rowCount)` whose row
satisfies the expression under that mode, and this is exactly the value
`Filter.run` writes into the result header's `rowCount`. -/
theorem C1_filter_run_row_count (expression : List (List α)) (mode : Mode)
    (evalRule : ℕ → α → Bool) (rowCount batchSize workerCount : ℕ) (s : Sys)
    (hW : 1 ≤ workerCount)
    (hreach : Relation.ReflTransGen
      (Step (fun r => generateExpressionTester mode (evalRule r) expression)
        rowCount batchSize)
      (Sys.init workerCount) s)
    (hdone : AllDone s) :
    s.slot = ((List.range rowCount).countP
        fun r => generateExpressionTester mode (evalRule r) expression)
    ∧ finalizeRowCount s
        = ((List.range rowCount).countP
            fun r => generateExpressionTester mode (evalRule r) expression) := by
  obtain ⟨hcount, hdnext, hlen⟩ := sysInv_reach hreach
  have hpend : pendingMatches
      (fun r => generateExpressionTester mode (evalRule r) expression) s.workers = 0 := by
    apply List.sum_eq_zero
    intro x hx
    rcases List.mem_map.mp hx with ⟨w, hw, rfl⟩
    rw [hdone w hw]
    rfl
  have hne : s.workers ≠ [] := by
    intro hnil
    rw [hnil] at hlen
    simp at hlen
    omega
  have hmem : WStatus.done ∈ s.workers := by
    rcases List.exists_mem_of_ne_nil s.workers hne with ⟨w, hw⟩
    rw [← hdone w hw]
    exact hw
  have hnext := hdnext hmem
  have hmin : min s.next rowCount = rowCount := by omega
  rw [hmin] at hcount
  constructor
  · omega
  · simp only [finalizeRowCount]
    omega

/-- Witness for `C1_filter_run_row_count`: one worker, batch size 1024, a
1-row table and the single-clause DNF expression whose one rule holds
exactly on row 0; the concrete execution claims `[0,1)`, processes row 0
(one slot reservation), claims again at 1024 and finishes with `slot = 1`. -/
theorem C1_filter_run_row_count_witness :
    (⟨2048, 1, [WStatus.done]⟩ : Sys).slot
      = ((List.range 1).countP fun r =>
          generateExpressionTester .dnf (fun (_ : Unit) => decide (r = 0)) [[()]]) := by
  have hreach : Relation.ReflTransGen
      (Step (fun r => generateExpressionTester .dnf
        (fun (_ : Unit) => decide (r = 0)) [[()]]) 1 1024)
      (Sys.init 1) ⟨2048, 1, [WStatus.done]⟩ := by
    refine Relation.ReflTransGen.head (Step.claim _ 0 rfl) ?_
    refine Relation.ReflTransGen.head (Step.work _ 0 0 [] rfl) ?_
    refine Relation.ReflTransGen.head (Step.claim _ 0 rfl) ?_
    exact Relation.ReflTransGen.refl
  exact (C1_filter_run_row_count [[()]] .dnf (fun r (_ : Unit) => decide (r = 0))
    1 1024 1 _ (by decide) hreach (by simp [AllDone])).1

/-! ## The heap allocator (C5, C6)

From `Heap` in `src/core/Heap.js` (the current version using `Atomize`) and
`MemoryBlock` in `src/core/MemoryBlock.js`.

The heap's `Uint32Array` view is modelled as a word-indexed memory
`mem : ℕ → ℕ` (word `w` covers bytes `4w..4w+3`); the allocation watermark
(`mUint32View[1]`, bytes 4–7) is kept in a separate field `wm`, and the lock
word is not modelled (every modelled operation runs under the lock).  `>> 2`
becomes `/ 4` (all shifted quantities are non-negative and below 2^31).
A `MemoryBlock` is its `address` and `size` (the payload size `mSize`, which
`_setSize` overwrites with the raw requested size on `shrink`).  Debug-build
throws become `none`.  The recursive watermark walk
`_findNewAllocOffset` is given explicit fuel; the fuel argument passed by
`free`/`shrink` (the walk's start address) is shown sufficient on reachable
states by `walk_valid` below, whose proof never exhausts it. -/

/-- `kSizeOf1KB`. -/
def kSizeOf1KB : ℕ := 1024

/-- `kSizeOf1MB`. -/
def kSizeOf1MB : ℕ := kSizeOf1KB * 1024

/-- `kSizeOf1GB`. -/
def kSizeOf1GB : ℕ := kSizeOf1MB * 1024

/-- `kHeaderSize`: the heap's 16-byte reserved header. -/
def kHeaderSize : ℕ := 16

/-- `kMaxHeapSize = 2GB - 16MB`. -/
def kMaxHeapSize : ℕ := kSizeOf1GB * 2 - kSizeOf1MB * 16

/-- `kMaxAllocSize = kMaxHeapSize - 4`. -/
def kMaxAllocSize : ℕ := kMaxHeapSize - 4

/-- `blockSize = ((size + 3) | 3) + 1` from `Heap.malloc`/`Heap.shrink`. -/
def blockSize (size : ℕ) : ℕ :=
  ((size + 3) ||| 3) + 1

theorem lor_three (x : ℕ) : x ||| 3 = 4 * (x / 4) + 3 := by
  apply Nat.eq_of_testBit_eq
  intro j
  rw [Nat.testBit_lor]
  have hx : x = 2 ^ 2 * (x / 4) + x % 4 := by omega
  have hb : x % 4 < 2 ^ 2 := by omega
  have h3 : (3 : ℕ) < 2 ^ 2 := by omega
  have hr : 4 * (x / 4) + 3 = 2 ^ 2 * (x / 4) + 3 := by omega
  conv_lhs => rw [hx]
  rw [Nat.testBit_mul_pow_two_add _ hb, hr, Nat.testBit_mul_pow_two_add _ h3]
  by_cases hj : j < 2
  · rw [if_pos hj, if_pos hj]
    have h3t : Nat.testBit 3 j = true := by
      interval_cases j <;> decide
    rw [h3t]
    simp
  · rw [if_neg hj, if_neg hj]
    have h3t : Nat.testBit 3 j = false := by
      have hlt : (3 : ℕ) < 2 ^ j :=
        lt_of_lt_of_le (by norm_num : (3 : ℕ) < 2 ^ 2)
          (Nat.pow_le_pow_right (by norm_num) (by omega))
      exact Nat.testBit_lt_two_pow hlt
    rw [h3t]
    simp

theorem blockSize_eq (size : ℕ) : blockSize size = 4 * ((size + 3) / 4) + 4 := by
  unfold blockSize
  rw [lor_three]

theorem blockSize_spec (size : ℕ) :
    blockSize size % 4 = 0 ∧ 4 ≤ blockSize size ∧ size + 4 ≤ blockSize size := by
  rw [blockSize_eq]
  omega

theorem lor_one_of_even {x : ℕ} (h : x % 2 = 0) : x ||| 1 = x + 1 := by
  apply Nat.eq_of_testBit_eq
  intro i
  rw [Nat.testBit_lor]
  cases i with
  | zero =>
    rw [Nat.testBit_zero, Nat.testBit_zero, Nat.testBit_zero]
    have h1 : (x + 1) % 2 = 1 := by omega
    simp [h, h1]
  | succ i =>
    rw [Nat.testBit_succ, Nat.testBit_succ, Nat.testBit_succ]
    have h2 : (1 : ℕ) / 2 = 0 := rfl
    have h3 : (x + 1) / 2 = x / 2 := by omega
    rw [h2, h3]
    simp [Nat.zero_testBit]

theorem xor_one_of_odd {x : ℕ} (h : x % 2 = 1) : x ^^^ 1 = x - 1 := by
  apply Nat.eq_of_testBit_eq
  intro i
  rw [Nat.testBit_xor]
  cases i with
  | zero =>
    rw [Nat.testBit_zero, Nat.testBit_zero, Nat.testBit_zero]
    have h1 : (x - 1) % 2 = 0 := by omega
    simp [h, h1]
  | succ i =>
    rw [Nat.testBit_succ, Nat.testBit_succ, Nat.testBit_succ]
    have h2 : (1 : ℕ) / 2 = 0 := rfl
    have h3 : (x - 1) / 2 = x / 2 := by omega
    rw [h2, h3]
    simp [Nat.zero_testBit]

/-- The heap's mutable state: buffer size, word memory (words `≥ 4`; the
walk never reads words 0–3 because it stops at offset `kHeaderSize`), and
the allocation watermark. -/
structure HeapState where
  size : ℕ
  mem : ℕ → ℕ
  wm : ℕ

/-- A `MemoryBlock`: `address` and payload `size`. -/
structure Block where
  addr : ℕ
  size : ℕ
deriving DecidableEq, Repr

namespace Heap

/-- The heap constructor's state for a fresh buffer of `S` bytes: a zeroed
`ArrayBuffer` with `mUint32View[1] = 16` (the watermark field) and
`mUint32View[3] = 0xffffffff`. -/
def heapNew (S : ℕ) : HeapState :=
  { size := S, mem := fun w => if w = 3 then 4294967295 else 0, wm := kHeaderSize }

/-- The constructor's debug-build size validation: a multiple of 4; a power
of two `> 1` when below 16MB (`buffer <= 1 || (buffer & (buffer - 1))`
throws); a multiple of 16MB otherwise. -/
def initOpt (S : ℕ) : Option HeapState :=
  if S % 4 ≠ 0 then none
  else if S < kSizeOf1MB * 16 then
    if S ≤ 1 ∨ S &&& (S - 1) ≠ 0 then none else some (heapNew S)
  else if S % (kSizeOf1MB * 16) ≠ 0 then none
  else some (heapNew S)

/-- `Heap._findNewAllocOffset` with explicit fuel:
`if (offset !== kHeaderSize && this._isMarkedFree(offset - 4)) return
this._findNewAllocOffset(this._readPadding(offset - 4)); return offset`,
where `_isMarkedFree(o)` is `mUint32View[o >> 2] & 1` and `_readPadding(o)`
is `mUint32View[o >> 2] ^ 1`. -/
def findNewAllocOffset (mem : ℕ → ℕ) : ℕ → ℕ → ℕ
  | 0, offset => offset
  | fuel + 1, offset =>
    if offset ≠ kHeaderSize ∧ mem ((offset - 4) / 4) &&& 1 ≠ 0 then
      findNewAllocOffset mem fuel (mem ((offset - 4) / 4) ^^^ 1)
    else offset

/-- `Heap.malloc` (debug build): fails on an oversized request
(`blockSize - 4 > kMaxAllocSize`) or insufficient memory
(`blockSize > freeMemory`, with `freeMemory = size - watermark`); otherwise
fetches-and-adds the watermark, writes the block's address into the tag word
at `((address + blockSize) >> 2) - 1`, and returns
`MemoryBlock(address, blockSize - 4)`. -/
def malloc (σ : HeapState) (size : ℕ) : Option (HeapState × Block) :=
  let blockSz := blockSize size
  if kMaxAllocSize < blockSz - 4 then none
  else if σ.size - σ.wm < blockSz then none
  else
    some ({ σ with
        wm := σ.wm + blockSz,
        mem := Function.update σ.mem ((σ.wm + blockSz) / 4 - 1) σ.wm },
      { addr := σ.wm, size := blockSz - 4 })

/-- `Heap.free` (debug build): `paddingAddress = address + size`; throws on a
tag already marked free; ors the free flag into the tag; when the block is at
the top (`allocOffset === paddingAddress + 4`) stores
`_findNewAllocOffset(address)` as the new watermark. -/
def free (σ : HeapState) (b : Block) : Option HeapState :=
  let paddingAddress := b.addr + b.size
  if σ.mem (paddingAddress / 4) &&& 1 ≠ 0 then none
  else
    let mem1 := Function.update σ.mem (paddingAddress / 4)
      (σ.mem (paddingAddress / 4) ||| 1)
    if σ.wm = paddingAddress + 4 then
      some { σ with mem := mem1, wm := findNewAllocOffset mem1 b.addr b.addr }
    else
      some { σ with mem := mem1 }

/-- `Heap.shrink` (debug build): throws when `size >= memory.size`; when the
rounded `newSize` is still smaller than the current payload, throws on an
already-freed tag, writes the shrunken block's tag (`address`) at
`((address + newSize) >> 2) - 1`, stores `address + newSize` at the old
padding word and ors the free flag into it, sets the block's recorded size
to the **raw** requested `size` (`memory._setSize(size)`), and performs the
top-of-stack walk from `memory.address` when `allocOffset === endAddress`;
otherwise (rounded size not smaller) it changes nothing. -/
def shrink (σ : HeapState) (b : Block) (size : ℕ) : Option (HeapState × Block) :=
  if b.size ≤ size then none
  else
    let paddingAddress := b.addr + b.size
    let newSize := blockSize size
    if newSize < b.size then
      if σ.mem (paddingAddress / 4) &&& 1 ≠ 0 then none
      else
        let mem2 := Function.update
          (Function.update σ.mem ((b.addr + newSize) / 4 - 1) b.addr)
          (paddingAddress / 4) ((b.addr + newSize) ||| 1)
        let b' : Block := { addr := b.addr, size := size }
        if σ.wm = paddingAddress + 4 then
          some ({ σ with mem := mem2, wm := findNewAllocOffset mem2 b.addr b.addr }, b')
        else
          some ({ σ with mem := mem2 }, b')
    else
      some (σ, b)

end Heap

/-- A heap operation naming a live block by its index in the heap's
registered-block list (`mMemoryBlocks`, to which `malloc` appends and from
which `free` removes). -/
inductive Cmd where
  | alloc (size : ℕ)
  | free (i : ℕ)
  | shrink (i : ℕ) (size : ℕ)
deriving DecidableEq, Repr

/-- One heap operation on the state paired with the live-block list. -/
def stepCmd : HeapState × List Block → Cmd → Option (HeapState × List Block)
  | (σ, bl), .alloc n => (Heap.malloc σ n).map fun r => (r.1, bl ++ [r.2])
  | (σ, bl), .free i =>
    match bl[i]? with
    | some b => (Heap.free σ b).map fun σ' => (σ', bl.eraseIdx i)
    | none => none
  | (σ, bl), .shrink i n =>
    match bl[i]? with
    | some b => (Heap.shrink σ b n).map fun r => (r.1, bl.set i r.2)
    | none => none

/-- A sequence of heap operations, each required to succeed. -/
def runProg (start : HeapState × List Block) (prog : List Cmd) :
    Option (HeapState × List Block) :=
  prog.foldlM stepCmd start

/-! ### The C5 invariant

A ghost set `W` of *boundary words*: words that currently hold a block
boundary backlink, written by `malloc`'s tag write, by `shrink`'s two
writes, or re-marked by `free`.  Every `W` word holds either an even aligned
address `≥ 16` whose own boundary chain stays inside `W`, or that address
plus the free flag; positions the watermark walk can visit are `16` or
aligned addresses whose preceding word is in `W`.  This is enough to show
the watermark is always an aligned address `≥ 16`, which together with
`malloc`'s free-memory check gives every C5 property. -/

/-- A position the watermark or the walk may take. -/
def ValidPos (W : Set ℕ) (o : ℕ) : Prop :=
  o = 16 ∨ (o % 4 = 0 ∧ 16 ≤ o ∧ (o - 4) / 4 ∈ W)

theorem validPos_facts {W : Set ℕ} {o : ℕ} (h : ValidPos W o) :
    o % 4 = 0 ∧ 16 ≤ o := by
  rcases h with rfl | ⟨h1, h2, _⟩ <;> omega

theorem validPos_mono {W W' : Set ℕ} (hWW : W ⊆ W') {o : ℕ} (h : ValidPos W o) :
    ValidPos W' o := by
  rcases h with rfl | ⟨h1, h2, h3⟩
  · exact Or.inl rfl
  · exact Or.inr ⟨h1, h2, hWW h3⟩

/-- Values held by boundary words. -/
structure WordsOK (W : Set ℕ) (mem : ℕ → ℕ) : Prop where
  even_ok : ∀ w ∈ W, mem w % 2 = 0 →
    mem w % 4 = 0 ∧ 16 ≤ mem w ∧ mem w ≤ 4 * w ∧
      (mem w = 16 ∨ (mem w - 4) / 4 ∈ W)
  odd_ok : ∀ w ∈ W, mem w % 2 = 1 →
    (mem w - 1) % 4 = 0 ∧ 16 ≤ mem w - 1 ∧ mem w - 1 ≤ 4 * w ∧
      (mem w - 1 = 16 ∨ (mem w - 1 - 4) / 4 ∈ W)

/-- The heap invariant, for one choice of boundary-word set. -/
structure InvW (W : Set ℕ) (σ : HeapState) (bl : List Block) : Prop where
  words : WordsOK W σ.mem
  wm_pos : ValidPos W σ.wm
  blocks_pos : ∀ b ∈ bl, ValidPos W b.addr

/-- The heap invariant. -/
def HeapInv (σ : HeapState) (bl : List Block) : Prop :=
  ∃ W : Set ℕ, InvW W σ bl

/-- On a memory whose boundary words are well formed, the watermark walk
started at a valid position with fuel `≥` the position returns an aligned
valid position `≥ 16` that does not exceed the start (and the fuel is never
exhausted: each step descends by at least 4). -/
theorem walk_valid {W : Set ℕ} {mem : ℕ → ℕ} (hW : WordsOK W mem) :
    ∀ (fuel o : ℕ), ValidPos W o → o ≤ fuel →
      (Heap.findNewAllocOffset mem fuel o) % 4 = 0
      ∧ 16 ≤ Heap.findNewAllocOffset mem fuel o
      ∧ Heap.findNewAllocOffset mem fuel o ≤ o
      ∧ ValidPos W (Heap.findNewAllocOffset mem fuel o) := by
  intro fuel
  induction fuel with
  | zero =>
    intro o hpos hle
    have := validPos_facts hpos
    omega
  | succ fuel ih =>
    intro o hpos hle
    simp only [Heap.findNewAllocOffset]
    by_cases hc : o ≠ kHeaderSize ∧ mem ((o - 4) / 4) &&& 1 ≠ 0
    · rw [if_pos hc]
      rcases hpos with rfl | ⟨hal, h16, hmem⟩
      · exact absurd rfl hc.1
      have hodd : mem ((o - 4) / 4) % 2 = 1 := by
        have h := hc.2
        rw [Nat.and_one_is_mod] at h
        omega
      obtain ⟨hal', h16', hle', hchain⟩ := hW.odd_ok _ hmem hodd
      rw [xor_one_of_odd hodd]
      have hstep : mem ((o - 4) / 4) - 1 ≤ o - 4 := by
        have h4 : 4 * ((o - 4) / 4) = o - 4 := by omega
        omega
      have hposn : ValidPos W (mem ((o - 4) / 4) - 1) := by
        rcases hchain with h | h
        · exact Or.inl h
        · exact Or.inr ⟨hal', h16', h⟩
      obtain ⟨r1, r2, r3, r4⟩ := ih _ hposn (by omega)
      exact ⟨r1, r2, by omega, r4⟩
    · rw [if_neg hc]
      have := validPos_facts hpos
      exact ⟨this.1, this.2, le_refl o, hpos⟩

/-- `malloc` preserves the invariant; the returned block starts at the old
watermark with the rounded payload, and the new watermark fits in the
heap. -/
theorem heapInv_malloc {σ : HeapState} {bl : List Block} {n : ℕ}
    {σ' : HeapState} {b : Block} (h : HeapInv σ bl)
    (hm : Heap.malloc σ n = some (σ', b)) :
    HeapInv σ' (bl ++ [b])
    ∧ b.addr = σ.wm ∧ b.size = blockSize n - 4
    ∧ σ'.wm = σ.wm + blockSize n ∧ σ'.size = σ.size
    ∧ σ.wm + blockSize n ≤ σ.size := by
  obtain ⟨W, hwords, hwm, hblocks⟩ := h
  unfold Heap.malloc at hm
  by_cases h1 : kMaxAllocSize < blockSize n - 4
  · rw [if_pos h1] at hm
    cases hm
  rw [if_neg h1] at hm
  by_cases h2 : σ.size - σ.wm < blockSize n
  · rw [if_pos h2] at hm
    cases hm
  rw [if_neg h2] at hm
  obtain ⟨hσ, hb⟩ := Prod.mk.injEq .. ▸ (Option.some.injEq .. ▸ hm)
  subst hσ
  subst hb
  obtain ⟨hbs4, hbsge, hbsn⟩ := blockSize_spec n
  obtain ⟨hwal, hw16⟩ := validPos_facts hwm
  have hfit : σ.wm + blockSize n ≤ σ.size := by omega
  refine ⟨?_, rfl, rfl, rfl, rfl, hfit⟩
  classical
  set t := (σ.wm + blockSize n) / 4 - 1 with ht
  refine ⟨W ∪ {t}, ⟨?_, ?_⟩, ?_, ?_⟩
  · -- even_ok for the updated memory
    intro w hw hev
    dsimp only at hev ⊢
    by_cases hwt : w = t
    · subst hwt
      rw [Function.update_same] at hev ⊢
      have h4t : 4 * t = σ.wm + blockSize n - 4 := by omega
      refine ⟨hwal, hw16, by omega, ?_⟩
      rcases hwm with h | ⟨_, _, h⟩
      · exact Or.inl h
      · exact Or.inr (Or.inl h)
    · rw [Function.update_noteq hwt] at hev ⊢
      rcases hw with hw | hw
      · obtain ⟨e1, e2, e3, e4⟩ := hwords.even_ok w hw hev
        refine ⟨e1, e2, e3, ?_⟩
        rcases e4 with h | h
        · exact Or.inl h
        · exact Or.inr (Or.inl h)
      · exact absurd hw hwt
  · -- odd_ok for the updated memory
    intro w hw hodd
    dsimp only at hodd ⊢
    by_cases hwt : w = t
    · subst hwt
      rw [Function.update_same] at hodd
      omega
    · rw [Function.update_noteq hwt] at hodd ⊢
      rcases hw with hw | hw
      · obtain ⟨e1, e2, e3, e4⟩ := hwords.odd_ok w hw hodd
        refine ⟨e1, e2, e3, ?_⟩
        rcases e4 with h | h
        · exact Or.inl h
        · exact Or.inr (Or.inl h)
      · exact absurd hw hwt
  · -- the new watermark is a valid position
    show ValidPos (W ∪ {t}) (σ.wm + blockSize n)
    refine Or.inr ⟨by omega, by omega, ?_⟩
    have : (σ.wm + blockSize n - 4) / 4 = t := by omega
    rw [this]
    exact Or.inr rfl
  · -- every live block (old and new) starts at a valid position
    intro b' hb'
    rcases List.mem_append.mp hb' with hold | hnew
    · exact validPos_mono Set.subset_union_left (hblocks b' hold)
    · rcases List.mem_singleton.mp hnew with rfl
      exact validPos_mono Set.subset_union_left hwm

/-- `free` preserves the invariant (for any sub-collection of the remaining
blocks) and the heap size. -/
theorem heapInv_free {σ : HeapState} {bl : List Block} {b : Block} {σ' : HeapState}
    (h : HeapInv σ bl) (hb : b ∈ bl) (hf : Heap.free σ b = some σ')
    (bl' : List Block) (hbl' : ∀ x ∈ bl', x ∈ bl) :
    HeapInv σ' bl' ∧ σ'.size = σ.size := by
  obtain ⟨W, hwords, hwm, hblocks⟩ := h
  unfold Heap.free at hf
  by_cases hmk : σ.mem ((b.addr + b.size) / 4) &&& 1 ≠ 0
  · rw [if_pos hmk] at hf
    cases hf
  rw [if_neg hmk] at hf
  have hev : σ.mem ((b.addr + b.size) / 4) % 2 = 0 := by
    rw [Nat.and_one_is_mod] at hmk
    omega
  have hlor : σ.mem ((b.addr + b.size) / 4) ||| 1
      = σ.mem ((b.addr + b.size) / 4) + 1 := lor_one_of_even hev
  have hWmem1 : WordsOK W (Function.update σ.mem ((b.addr + b.size) / 4)
      (σ.mem ((b.addr + b.size) / 4) ||| 1)) := by
    constructor
    · intro w hw hev'
      by_cases hwp : w = (b.addr + b.size) / 4
      · subst hwp
        rw [Function.update_same, hlor] at hev'
        omega
      · rw [Function.update_noteq hwp] at hev' ⊢
        exact hwords.even_ok w hw hev'
    · intro w hw hodd
      by_cases hwp : w = (b.addr + b.size) / 4
      · subst hwp
        rw [Function.update_same, hlor] at hodd ⊢
        obtain ⟨e1, e2, e3, e4⟩ := hwords.even_ok _ hw hev
        simp only [Nat.add_sub_cancel]
        exact ⟨e1, e2, e3, e4⟩
      · rw [Function.update_noteq hwp] at hodd ⊢
        exact hwords.odd_ok w hw hodd
  by_cases htop : σ.wm = b.addr + b.size + 4
  · rw [if_pos htop] at hf
    obtain rfl := Option.some.injEq .. ▸ hf
    refine ⟨⟨W, hWmem1, ?_, fun x hx => hblocks x (hbl' x hx)⟩, rfl⟩
    have hpos := hblocks b hb
    exact (walk_valid hWmem1 b.addr b.addr hpos (le_refl _)).2.2.2
  · rw [if_neg htop] at hf
    obtain rfl := Option.some.injEq .. ▸ hf
    exact ⟨⟨W, hWmem1, hwm, fun x hx => hblocks x (hbl' x hx)⟩, rfl⟩

/-- `shrink` preserves the invariant (for any sub-collection of the blocks
with the shrunken block replacing the original) and the heap size. -/
theorem heapInv_shrink {σ : HeapState} {bl : List Block} {b : Block} {n : ℕ}
    {σ' : HeapState} {b2 : Block} (h : HeapInv σ bl) (hb : b ∈ bl)
    (hs : Heap.shrink σ b n = some (σ', b2)) (bl' : List Block)
    (hbl' : ∀ x ∈ bl', x ∈ bl ∨ x = b2) :
    HeapInv σ' bl' ∧ σ'.size = σ.size := by
  obtain ⟨W, hwords, hwm, hblocks⟩ := h
  unfold Heap.shrink at hs
  by_cases h0 : b.size ≤ n
  · rw [if_pos h0] at hs
    cases hs
  rw [if_neg h0] at hs
  by_cases h1 : blockSize n < b.size
  swap
  · rw [if_neg h1] at hs
    obtain ⟨rfl, rfl⟩ := Prod.mk.injEq .. ▸ Option.some.injEq .. ▸ hs
    refine ⟨⟨W, hwords, hwm, fun x hx => ?_⟩, rfl⟩
    rcases hbl' x hx with hx' | rfl
    · exact hblocks x hx'
    · exact hblocks _ hb
  rw [if_pos h1] at hs
  by_cases hmk : σ.mem ((b.addr + b.size) / 4) &&& 1 ≠ 0
  · rw [if_pos hmk] at hs
    cases hs
  rw [if_neg hmk] at hs
  have hpos := hblocks b hb
  obtain ⟨hal, h16⟩ := validPos_facts hpos
  obtain ⟨hns4, hnsge, _⟩ := blockSize_spec n
  have hnslt : blockSize n < b.size := h1
  set a := b.addr with ha
  set ns := blockSize n with hns
  set t1 := (a + ns) / 4 - 1 with ht1
  set t2 := (a + b.size) / 4 with ht2
  have ht1t2 : t1 ≠ t2 := by omega
  have hv2 : (a + ns) ||| 1 = a + ns + 1 := lor_one_of_even (by omega)
  set mem2 := Function.update (Function.update σ.mem t1 a) t2 ((a + ns) ||| 1)
    with hmem2
  have hm2t2 : mem2 t2 = a + ns + 1 := by
    rw [hmem2, Function.update_same, hv2]
  have hm2t1 : mem2 t1 = a := by
    rw [hmem2, Function.update_noteq ht1t2, Function.update_same]
  have hm2old : ∀ w, w ≠ t1 → w ≠ t2 → mem2 w = σ.mem w := by
    intro w hw1 hw2
    rw [hmem2, Function.update_noteq hw2, Function.update_noteq hw1]
  have hsubW : W ⊆ W ∪ {t1, t2} := Set.subset_union_left
  have hWmem2 : WordsOK (W ∪ {t1, t2}) mem2 := by
    constructor
    · intro w hw hev
      have hw' : w = t1 ∨ w = t2 ∨ w ∈ W := by
        simpa [Set.mem_union, Set.mem_insert_iff] using hw
      by_cases hwt2 : w = t2
      · subst hwt2
        rw [hm2t2] at hev
        omega
      by_cases hwt1 : w = t1
      · subst hwt1
        rw [hm2t1]
        refine ⟨hal, h16, by omega, ?_⟩
        rcases hpos with h | ⟨_, _, h⟩
        · exact Or.inl h
        · exact Or.inr (hsubW h)
      have hwW : w ∈ W := by tauto
      rw [hm2old w hwt1 hwt2] at hev ⊢
      obtain ⟨e1, e2, e3, e4⟩ := hwords.even_ok w hwW hev
      refine ⟨e1, e2, e3, ?_⟩
      rcases e4 with h | h
      · exact Or.inl h
      · exact Or.inr (hsubW h)
    · intro w hw hodd
      have hw' : w = t1 ∨ w = t2 ∨ w ∈ W := by
        simpa [Set.mem_union, Set.mem_insert_iff] using hw
      by_cases hwt2 : w = t2
      · subst hwt2
        rw [hm2t2] at hodd ⊢
        simp only [Nat.add_sub_cancel]
        refine ⟨by omega, by omega, by omega, Or.inr ?_⟩
        have : (a + ns - 4) / 4 = t1 := by omega
        rw [this]
        exact Set.mem_union_right _ (Set.mem_insert t1 {t2})
      by_cases hwt1 : w = t1
      · subst hwt1
        rw [hm2t1] at hodd
        omega
      have hwW : w ∈ W := by tauto
      rw [hm2old w hwt1 hwt2] at hodd ⊢
      obtain ⟨e1, e2, e3, e4⟩ := hwords.odd_ok w hwW hodd
      refine ⟨e1, e2, e3, ?_⟩
      rcases e4 with h | h
      · exact Or.inl h
      · exact Or.inr (hsubW h)
  have hposW' : ValidPos (W ∪ {t1, t2}) a := validPos_mono hsubW hpos
  by_cases htop : σ.wm = b.addr + b.size + 4
  · rw [if_pos htop] at hs
    obtain ⟨rfl, rfl⟩ := Prod.mk.injEq .. ▸ Option.some.injEq .. ▸ hs
    refine ⟨⟨W ∪ {t1, t2}, hWmem2, ?_, fun x hx => ?_⟩, rfl⟩
    · exact (walk_valid hWmem2 a a hposW' (le_refl _)).2.2.2
    · rcases hbl' x hx with hx' | rfl
      · exact validPos_mono hsubW (hblocks x hx')
      · exact hposW'
  · rw [if_neg htop] at hs
    obtain ⟨rfl, rfl⟩ := Prod.mk.injEq .. ▸ Option.some.injEq .. ▸ hs
    refine ⟨⟨W ∪ {t1, t2}, hWmem2, validPos_mono hsubW hwm, fun x hx => ?_⟩, rfl⟩
    rcases hbl' x hx with hx' | rfl
    · exact validPos_mono hsubW (hblocks x hx')
    · exact hposW'

/-- Each operation preserves the invariant and the heap size. -/
theorem heapInv_stepCmd {st st' : HeapState × List Block} {c : Cmd}
    (h : HeapInv st.1 st.2) (hs : stepCmd st c = some st') :
    HeapInv st'.1 st'.2 ∧ st'.1.size = st.1.size := by
  obtain ⟨σ, bl⟩ := st
  cases c with
  | alloc n =>
    simp only [stepCmd, Option.map_eq_some'] at hs
    obtain ⟨⟨σ2, b⟩, hm, rfl⟩ := hs
    obtain ⟨h1, _, _, _, hsize, _⟩ := heapInv_malloc h hm
    exact ⟨h1, hsize⟩
  | free i =>
    simp only [stepCmd] at hs
    rcases hbi : bl[i]? with _ | b
    · rw [hbi] at hs
      cases hs
    · rw [hbi] at hs
      simp only [Option.map_eq_some'] at hs
      obtain ⟨σ2, hf, rfl⟩ := hs
      exact heapInv_free h (List.getElem?_mem hbi) hf _
        (fun x hx => List.mem_of_mem_eraseIdx hx)
  | shrink i n =>
    simp only [stepCmd] at hs
    rcases hbi : bl[i]? with _ | b
    · rw [hbi] at hs
      cases hs
    · rw [hbi] at hs
      simp only [Option.map_eq_some'] at hs
      obtain ⟨⟨σ2, b2⟩, hsh, rfl⟩ := hs
      exact heapInv_shrink h (List.getElem?_mem hbi) hsh _
        (fun x hx => List.mem_or_eq_of_mem_set hx)

/-- An operation sequence preserves the invariant and the heap size. -/
theorem heapInv_run :
    ∀ (prog : List Cmd) (st st' : HeapState × List Block),
      HeapInv st.1 st.2 → runProg st prog = some st' →
      HeapInv st'.1 st'.2 ∧ st'.1.size = st.1.size := by
  intro prog
  induction prog with
  | nil =>
    intro st st' h hr
    simp only [runProg, List.foldlM_nil, Option.pure_def, Option.some.injEq] at hr
    subst hr
    exact ⟨h, rfl⟩
  | cons c rest ih =>
    intro st st' h hr
    simp only [runProg, List.foldlM_cons] at hr
    rcases hstep : stepCmd st c with _ | st1
    · rw [hstep] at hr
      cases hr
    · rw [hstep] at hr
      simp only [Option.bind_eq_bind, Option.some_bind] at hr
      obtain ⟨h1, hs1⟩ := heapInv_stepCmd h hstep
      obtain ⟨h2, hs2⟩ := ih st1 st' h1 hr
      exact ⟨h2, by omega⟩

/-- The fresh heap satisfies the invariant (with no boundary words). -/
theorem heapInv_init (S : ℕ) : HeapInv (Heap.heapNew S) [] := by
  refine ⟨∅, ⟨?_, ?_⟩, Or.inl rfl, ?_⟩
  · intro w hw
    exact absurd hw (Set.not_mem_empty w)
  · intro w hw
    exact absurd hw (Set.not_mem_empty w)
  · intro b hb
    cases hb

/-- A successful construction yields the fresh heap state of that size. -/
theorem initOpt_eq {S : ℕ} {σ0 : HeapState} (h : Heap.initOpt S = some σ0) :
    σ0 = Heap.heapNew S := by
  unfold Heap.initOpt at h
  repeat' split at h
  all_goals cases h
  all_goals rfl

/-- C5: after any sequence of allocate/free/shrink operations on a heap
constructed with size `S`, every further allocation that succeeds returns a
block `b` with `b.size ≥ n`, `b.size % 4 = 0`, `b.addr % 4 = 0`,
`b.addr ≥ 16` and `b.addr + b.size + 4 ≤ S`. -/
theorem C5_malloc_block_invariants (S : ℕ) (σ0 : HeapState) (prog : List Cmd)
    (σ : HeapState) (bl : List Block) (n : ℕ) (σ' : HeapState) (b : Block)
    (hinit : Heap.initOpt S = some σ0)
    (hrun : runProg (σ0, []) prog = some (σ, bl))
    (hmalloc : Heap.malloc σ n = some (σ', b)) :
    n ≤ b.size ∧ b.size % 4 = 0 ∧ b.addr % 4 = 0 ∧ 16 ≤ b.addr
      ∧ b.addr + b.size + 4 ≤ S := by
  obtain rfl := initOpt_eq hinit
  obtain ⟨hinv, hsize⟩ := heapInv_run prog (Heap.heapNew S, []) (σ, bl)
    (heapInv_init S) hrun
  dsimp only at hinv hsize
  obtain ⟨hinv', haddr, hbsize, hwm', _, hfit⟩ := heapInv_malloc hinv hmalloc
  obtain ⟨W, _, hwm, _⟩ := hinv
  obtain ⟨hwal, hw16⟩ := validPos_facts hwm
  obtain ⟨hbs4, hbsge, hbsn⟩ := blockSize_spec n
  have hS : σ.size = S := hsize
  refine ⟨by omega, by omega, by omega, by omega, by omega⟩

/-- Witness for `C5_malloc_block_invariants`: a 64-byte heap, the operation
sequence “allocate 12 bytes, shrink that block to 3 bytes (a size that is
not a multiple of 4), free it, allocate 0 bytes”, and then a successful
8-byte allocation, which returns the block at address 20 with payload 8. -/
theorem C5_malloc_block_invariants_witness :
    ∃ (σ : HeapState) (bl : List Block) (σ' : HeapState) (b : Block),
      Heap.initOpt 64 = some (Heap.heapNew 64)
      ∧ runProg (Heap.heapNew 64, []) [.alloc 12, .shrink 0 3, .free 0, .alloc 0]
          = some (σ, bl)
      ∧ Heap.malloc σ 8 = some (σ', b)
      ∧ 8 ≤ b.size ∧ b.size % 4 = 0 ∧ b.addr % 4 = 0 ∧ 16 ≤ b.addr
      ∧ b.addr + b.size + 4 ≤ 64 := by
  refine ⟨_, _, _, _, rfl, rfl, rfl, ?_⟩
  exact C5_malloc_block_invariants 64 (Heap.heapNew 64)
    [.alloc 12, .shrink 0 3, .free 0, .alloc 0] _ _ 8 _ _ rfl rfl rfl

/-! ### C6: the watermark stack

For `malloc`/`free`-only operation sequences the heap is an exact stack.
The abstract stack records, in allocation order, each block's address, its
full block size (payload plus the 4-byte tag word) and whether it has been
freed; `free` marks an entry, and freeing the top entry makes the walk drop
every contiguous trailing run of freed entries, landing on the watermark
the heap had before the bottom-most block of that run was allocated. -/

/-- An abstract stack entry: a block's address, its full block size
(payload + 4-byte tag word) and whether it has been freed. -/
structure SBlock where
  addr : ℕ
  bsize : ℕ
  freed : Bool
deriving DecidableEq, Repr

/-- The watermark after laying the stack out contiguously from `base`. -/
def stackEnd (base : ℕ) : List SBlock → ℕ
  | [] => base
  | s :: t => stackEnd (base + s.bsize) t

/-- Blocks sit contiguously from `base`; every block size is aligned and
`≥ 4` (every `blockSize` result is). -/
def layoutOK : ℕ → List SBlock → Prop
  | _, [] => True
  | base, s :: t =>
    s.addr = base ∧ s.bsize % 4 = 0 ∧ 4 ≤ s.bsize ∧ layoutOK (base + s.bsize) t

/-- The live blocks a stack describes, in registration order
(`mMemoryBlocks`). -/
def liveBlocks (st : List SBlock) : List Block :=
  (st.filter fun s => !s.freed).map fun s => { addr := s.addr, size := s.bsize - 4 }

/-- Drop the maximal run of freed entries at the top of the stack. -/
def dropTrailingFreed (st : List SBlock) : List SBlock :=
  (st.reverse.dropWhile (·.freed)).reverse

/-- The word index of the tag word `malloc` wrote for this entry. -/
def sTag (s : SBlock) : ℕ :=
  (s.addr + s.bsize) / 4 - 1

theorem le_stackEnd (base : ℕ) (st : List SBlock) : base ≤ stackEnd base st := by
  induction st generalizing base with
  | nil => exact le_refl base
  | cons x t ih => exact le_trans (Nat.le_add_right base x.bsize) (ih (base + x.bsize))

theorem stackEnd_append (base : ℕ) (xs ys : List SBlock) :
    stackEnd base (xs ++ ys) = stackEnd (stackEnd base xs) ys := by
  induction xs generalizing base with
  | nil => rfl
  | cons x t ih =>
    simp only [List.cons_append, stackEnd]
    exact ih (base + x.bsize)

theorem stackEnd_concat (base : ℕ) (xs : List SBlock) (y : SBlock) :
    stackEnd base (xs ++ [y]) = stackEnd base xs + y.bsize := by
  rw [stackEnd_append]
  rfl

theorem layoutOK_append {base : ℕ} {xs ys : List SBlock} :
    layoutOK base (xs ++ ys) ↔ layoutOK base xs ∧ layoutOK (stackEnd base xs) ys := by
  induction xs generalizing base with
  | nil => simp [layoutOK, stackEnd]
  | cons x t ih =>
    show (x.addr = base ∧ x.bsize % 4 = 0 ∧ 4 ≤ x.bsize
        ∧ layoutOK (base + x.bsize) (t ++ ys))
      ↔ (x.addr = base ∧ x.bsize % 4 = 0 ∧ 4 ≤ x.bsize
        ∧ layoutOK (base + x.bsize) t) ∧ layoutOK (stackEnd (base + x.bsize) t) ys
    rw [ih]
    tauto

theorem stackEnd_align {base : ℕ} {st : List SBlock} (h : layoutOK base st)
    (hb : base % 4 = 0) : stackEnd base st % 4 = 0 := by
  induction st generalizing base with
  | nil => exact hb
  | cons x t ih =>
    obtain ⟨_, h4, _, ht⟩ := h
    exact ih ht (by omega)

theorem layout_get_base {base : ℕ} {st : List SBlock} (h : layoutOK base st) :
    ∀ {p : ℕ} {s : SBlock}, st[p]? = some s →
      base ≤ s.addr ∧ s.addr + s.bsize ≤ stackEnd base st := by
  induction st generalizing base with
  | nil =>
    intro p s hp
    simp at hp
  | cons x t ih =>
    intro p s hp
    obtain ⟨hx, _, _, ht⟩ := h
    cases p with
    | zero =>
      rw [List.getElem?_cons_zero, Option.some.injEq] at hp
      subst hp
      exact ⟨le_of_eq hx.symm, by
        show x.addr + x.bsize ≤ stackEnd (base + x.bsize) t
        rw [hx]
        exact le_stackEnd _ t⟩
    | succ p =>
      rw [List.getElem?_cons_succ] at hp
      obtain ⟨h1, h2⟩ := ih ht hp
      exact ⟨by omega, h2⟩

theorem layout_get_align {base : ℕ} {st : List SBlock} (h : layoutOK base st)
    (hb : base % 4 = 0) :
    ∀ {p : ℕ} {s : SBlock}, st[p]? = some s →
      s.addr % 4 = 0 ∧ s.bsize % 4 = 0 ∧ 4 ≤ s.bsize := by
  induction st generalizing base with
  | nil =>
    intro p s hp
    simp at hp
  | cons x t ih =>
    intro p s hp
    obtain ⟨hx, h4, hge, ht⟩ := h
    cases p with
    | zero =>
      rw [List.getElem?_cons_zero, Option.some.injEq] at hp
      subst hp
      exact ⟨by omega, h4, hge⟩
    | succ p =>
      rw [List.getElem?_cons_succ] at hp
      exact ih ht (by omega) hp

theorem layout_get_lt {base : ℕ} {st : List SBlock} (h : layoutOK base st) :
    ∀ {p q : ℕ} {x y : SBlock}, st[p]? = some x → st[q]? = some y → p < q →
      x.addr + x.bsize ≤ y.addr := by
  induction st generalizing base with
  | nil =>
    intro p q x y hp hq hpq
    simp at hp
  | cons z t ih =>
    intro p q x y hp hq hpq
    obtain ⟨hz, _, _, ht⟩ := h
    cases q with
    | zero => omega
    | succ q =>
      rw [List.getElem?_cons_succ] at hq
      cases p with
      | zero =>
        rw [List.getElem?_cons_zero, Option.some.injEq] at hp
        subst hp
        have := (layout_get_base ht hq).1
        omega
      | succ p =>
        rw [List.getElem?_cons_succ] at hp
        exact ih ht hp hq (by omega)

theorem lt_stackEnd_of_ne_nil {base : ℕ} {st : List SBlock} (h : layoutOK base st)
    (hne : st ≠ []) : base + 4 ≤ stackEnd base st := by
  cases st with
  | nil => exact absurd rfl hne
  | cons x t =>
    obtain ⟨_, _, hge, _⟩ := h
    have := le_stackEnd (base + x.bsize) t
    show base + 4 ≤ stackEnd (base + x.bsize) t
    omega

theorem layout_last_iff {base : ℕ} {st : List SBlock} (h : layoutOK base st) :
    ∀ {p : ℕ} {s : SBlock}, st[p]? = some s →
      (s.addr + s.bsize = stackEnd base st ↔ p + 1 = st.length) := by
  induction st generalizing base with
  | nil =>
    intro p s hp
    simp at hp
  | cons x t ih =>
    intro p s hp
    obtain ⟨hx, _, _, ht⟩ := h
    cases p with
    | zero =>
      rw [List.getElem?_cons_zero, Option.some.injEq] at hp
      subst hp
      show x.addr + x.bsize = stackEnd (base + x.bsize) t ↔ 0 + 1 = t.length + 1
      constructor
      · intro he
        rcases List.eq_nil_or_concat t with rfl | ⟨ys, y, rfl⟩
        · rfl
        · have := lt_stackEnd_of_ne_nil ht (by simp)
          omega
      · intro hl
        have : t = [] := by
          cases t with
          | nil => rfl
          | cons a b => simp at hl
        subst this
        show x.addr + x.bsize = base + x.bsize
        omega
    | succ p =>
      rw [List.getElem?_cons_succ] at hp
      show s.addr + s.bsize = stackEnd (base + x.bsize) t ↔ p + 1 + 1 = t.length + 1
      rw [ih ht hp]
      omega

theorem layoutOK_set_same {base : ℕ} {st : List SBlock} (h : layoutOK base st) :
    ∀ {p : ℕ} {s s' : SBlock}, st[p]? = some s → s'.addr = s.addr →
      s'.bsize = s.bsize → layoutOK base (st.set p s') := by
  induction st generalizing base with
  | nil =>
    intro p s s' hp _ _
    simp at hp
  | cons x t ih =>
    intro p s s' hp ha hb
    obtain ⟨hx, h4, hge, ht⟩ := h
    cases p with
    | zero =>
      rw [List.getElem?_cons_zero, Option.some.injEq] at hp
      subst hp
      rw [List.set_cons_zero]
      refine ⟨by omega, by omega, by omega, ?_⟩
      show layoutOK (base + s'.bsize) t
      rw [hb]
      exact ht
    | succ p =>
      rw [List.getElem?_cons_succ] at hp
      rw [List.set_cons_succ]
      exact ⟨hx, h4, hge, ih ht hp ha hb⟩

theorem stackEnd_set_same {st : List SBlock} :
    ∀ {p : ℕ} {s s' : SBlock} (base : ℕ), st[p]? = some s → s'.bsize = s.bsize →
      stackEnd base (st.set p s') = stackEnd base st := by
  induction st with
  | nil =>
    intro p s s' base hp _
    simp at hp
  | cons x t ih =>
    intro p s s' base hp hb
    cases p with
    | zero =>
      rw [List.getElem?_cons_zero, Option.some.injEq] at hp
      subst hp
      rw [List.set_cons_zero]
      show stackEnd (base + s'.bsize) t = stackEnd (base + x.bsize) t
      rw [hb]
    | succ p =>
      rw [List.getElem?_cons_succ] at hp
      rw [List.set_cons_succ]
      show stackEnd (base + x.bsize) (t.set p s') = stackEnd (base + x.bsize) t
      exact ih _ hp hb

/-- Tag words of distinct stack positions are distinct. -/
theorem sTag_inj {base : ℕ} {st : List SBlock} (h : layoutOK base st)
    (hb : base % 4 = 0) {p q : ℕ} {x y : SBlock} (hp : st[p]? = some x)
    (hq : st[q]? = some y) (hpq : p ≠ q) : sTag x ≠ sTag y := by
  have hxal := layout_get_align h hb hp
  have hyal := layout_get_align h hb hq
  have hxb := layout_get_base h hp
  have hyb := layout_get_base h hq
  unfold sTag
  rcases Nat.lt_or_ge p q with hlt | hge
  · have := layout_get_lt h hp hq hlt
    omega
  · have hlt : q < p := by omega
    have := layout_get_lt h hq hp hlt
    omega

/-- Marking the entry behind position `i` of the filtered view erases
position `i` from the filtered view. -/
theorem filter_set_eraseIdx {α : Type} (P : α → Bool) :
    ∀ (st : List α) (i : ℕ) (s : α), (st.filter P)[i]? = some s →
      ∀ s' : α, P s' = false →
      ∃ p, st[p]? = some s ∧ (st.set p s').filter P = (st.filter P).eraseIdx i := by
  intro st
  induction st with
  | nil =>
    intro i s hi
    simp at hi
  | cons x t ih =>
    intro i s hi s' hP
    by_cases hx : P x = true
    · rw [List.filter_cons_of_pos hx] at hi
      cases i with
      | zero =>
        rw [List.getElem?_cons_zero, Option.some.injEq] at hi
        subst hi
        refine ⟨0, List.getElem?_cons_zero, ?_⟩
        rw [List.set_cons_zero, List.filter_cons_of_neg (by simp [hP]),
          List.filter_cons_of_pos hx, List.eraseIdx_cons_zero]
      | succ i =>
        rw [List.getElem?_cons_succ] at hi
        obtain ⟨p, hp, he⟩ := ih i s hi s' hP
        refine ⟨p + 1, by rw [List.getElem?_cons_succ]; exact hp, ?_⟩
        rw [List.set_cons_succ, List.filter_cons_of_pos hx,
          List.filter_cons_of_pos hx, List.eraseIdx_cons_succ, he]
    · rw [List.filter_cons_of_neg hx] at hi
      obtain ⟨p, hp, he⟩ := ih i s hi s' hP
      refine ⟨p + 1, by rw [List.getElem?_cons_succ]; exact hp, ?_⟩
      rw [List.set_cons_succ, List.filter_cons_of_neg hx,
        List.filter_cons_of_neg hx, he]

theorem map_eraseIdx {α β : Type} (f : α → β) :
    ∀ (l : List α) (i : ℕ), (l.eraseIdx i).map f = (l.map f).eraseIdx i := by
  intro l
  induction l with
  | nil => intro i; rfl
  | cons x t ih =>
    intro i
    cases i with
    | zero => rfl
    | succ i =>
      rw [List.eraseIdx_cons_succ, List.map_cons, List.map_cons,
        List.eraseIdx_cons_succ, ih]

theorem dtf_concat_freed {y : SBlock} (h : y.freed = true) (ys : List SBlock) :
    dropTrailingFreed (ys ++ [y]) = dropTrailingFreed ys := by
  unfold dropTrailingFreed
  rw [List.reverse_concat, List.dropWhile_cons, if_pos h]

theorem dtf_concat_live {y : SBlock} (h : y.freed = false) (ys : List SBlock) :
    dropTrailingFreed (ys ++ [y]) = ys ++ [y] := by
  unfold dropTrailingFreed
  rw [List.reverse_concat, List.dropWhile_cons, if_neg (by simp [h])]
  simp

/-- The stack is its trailing-freed-stripped prefix plus a freed suffix. -/
theorem dtf_decomp (st : List SBlock) :
    ∃ suf, st = dropTrailingFreed st ++ suf ∧ ∀ x ∈ suf, x.freed = true := by
  induction st using List.reverseRecOn with
  | nil => exact ⟨[], rfl, by simp⟩
  | append_singleton ys y ih =>
    cases hy : y.freed
    · rw [dtf_concat_live hy]
      exact ⟨[], by simp, by simp⟩
    · obtain ⟨suf, he, hs⟩ := ih
      rw [dtf_concat_freed hy]
      refine ⟨suf ++ [y], by rw [← List.append_assoc, ← he], ?_⟩
      intro x hx
      rcases List.mem_append.mp hx with h | h
      · exact hs x h
      · rw [List.mem_singleton.mp h]
        exact hy

/-- The stripped stack's top entry, when any, is live. -/
theorem dtf_last_live (st : List SBlock) :
    ∀ s, (dropTrailingFreed st).getLast? = some s → s.freed = false := by
  induction st using List.reverseRecOn with
  | nil =>
    intro s hs
    cases hs
  | append_singleton ys y ih =>
    intro s hs
    cases hy : y.freed
    · rw [dtf_concat_live hy, List.getLast?_concat, Option.some.injEq] at hs
      rw [← hs]
      exact hy
    · rw [dtf_concat_freed hy] at hs
      exact ih s hs

theorem eq_concat_of_getLast {α : Type} :
    ∀ {l : List α} {a : α}, l.getLast? = some a → l.dropLast ++ [a] = l := by
  intro l
  induction l with
  | nil =>
    intro a h
    cases h
  | cons x t ih =>
    intro a h
    cases t with
    | nil =>
      cases h
      rfl
    | cons y t' =>
      have h' : (y :: t').getLast? = some a := h
      rw [List.dropLast_cons₂, List.cons_append, ih h']

/-- The abstraction relating a heap state and its registered-block list to
the abstract allocation stack: blocks laid out contiguously from
`kHeaderSize`, the watermark at the stack's end, every entry's tag word
holding its address plus its free flag, the top entry live (guaranteed
because freeing the top walks the watermark down), and the block list
exactly the live entries. -/
structure StackRepr (σ : HeapState) (bl : List Block) (st : List SBlock) : Prop where
  layout : layoutOK kHeaderSize st
  wm_eq : σ.wm = stackEnd kHeaderSize st
  tags : ∀ (p : ℕ) (s : SBlock), st[p]? = some s →
    σ.mem (sTag s) = s.addr + (if s.freed then 1 else 0)
  top_live : ∀ s, st.getLast? = some s → s.freed = false
  live_eq : bl = liveBlocks st

/-- On a memory whose tag words describe the stack, the walk started at the
stack's end strips exactly the trailing freed entries. -/
theorem walk_stack (mem : ℕ → ℕ) :
    ∀ (st : List SBlock) (fuel : ℕ), layoutOK kHeaderSize st →
      (∀ (p : ℕ) (s : SBlock), st[p]? = some s →
        mem (sTag s) = s.addr + (if s.freed then 1 else 0)) →
      stackEnd kHeaderSize st ≤ fuel →
      Heap.findNewAllocOffset mem fuel (stackEnd kHeaderSize st)
        = stackEnd kHeaderSize (dropTrailingFreed st) := by
  intro st
  induction st using List.reverseRecOn with
  | nil =>
    intro fuel _ _ _
    show Heap.findNewAllocOffset mem fuel kHeaderSize = kHeaderSize
    cases fuel with
    | zero => rfl
    | succ f =>
      show Heap.findNewAllocOffset mem (f + 1) kHeaderSize = kHeaderSize
      rw [Heap.findNewAllocOffset, if_neg]
      intro hc
      exact hc.1 rfl
  | append_singleton ys y ih =>
    intro fuel hlay htags hfuel
    obtain ⟨hly, hsy⟩ := layoutOK_append.mp hlay
    obtain ⟨hya, hy4, hyge, -⟩ := hsy
    have hE4 : stackEnd kHeaderSize ys % 4 = 0 := stackEnd_align hly (by decide)
    have hE16 : kHeaderSize ≤ stackEnd kHeaderSize ys := le_stackEnd _ _
    have ho : stackEnd kHeaderSize (ys ++ [y])
        = stackEnd kHeaderSize ys + y.bsize := stackEnd_concat _ _ _
    have h16 : kHeaderSize = 16 := rfl
    cases fuel with
    | zero => omega
    | succ f =>
      rw [ho, Heap.findNewAllocOffset]
      have hw : (stackEnd kHeaderSize ys + y.bsize - 4) / 4 = sTag y := by
        unfold sTag
        rw [hya]
        omega
      have hmem : mem (sTag y) = y.addr + (if y.freed then 1 else 0) :=
        htags ys.length y (List.getElem?_concat_length ys y)
      cases hfr : y.freed with
      | false =>
        have hite : (if (false : Bool) = true then (1 : ℕ) else 0) = 0 := rfl
        have hzero : mem ((stackEnd kHeaderSize ys + y.bsize - 4) / 4) &&& 1 = 0 := by
          rw [hw, hmem, hfr, hite, Nat.add_zero, Nat.and_one_is_mod, hya]
          omega
        rw [if_neg (fun hc => hc.2 hzero), dtf_concat_live hfr, ho]
      | true =>
        have hite : (if (true : Bool) = true then (1 : ℕ) else 0) = 1 := rfl
        have hval : mem ((stackEnd kHeaderSize ys + y.bsize - 4) / 4)
            = stackEnd kHeaderSize ys + 1 := by
          rw [hw, hmem, hfr, hite, hya]
        have hcond : stackEnd kHeaderSize ys + y.bsize ≠ kHeaderSize
            ∧ mem ((stackEnd kHeaderSize ys + y.bsize - 4) / 4) &&& 1 ≠ 0 := by
          refine ⟨by omega, ?_⟩
          rw [hval, Nat.and_one_is_mod]
          omega
        rw [if_pos hcond, hval, xor_one_of_odd (by omega : (stackEnd kHeaderSize ys + 1) % 2 = 1)]
        have hsimp : stackEnd kHeaderSize ys + 1 - 1 = stackEnd kHeaderSize ys := by omega
        rw [hsimp, dtf_concat_freed hfr]
        refine ih f hly (fun p s hp => ?_) (by omega)
        have hplen : p < ys.length := (List.getElem?_eq_some.mp hp).1
        refine htags p s ?_
        rw [List.getElem?_append, if_pos hplen]
        exact hp

/-- `malloc` pushes one live entry onto the abstract stack; the returned
block's address is the watermark the heap had just before the
allocation. -/
theorem stackRepr_malloc {σ : HeapState} {bl : List Block} {st : List SBlock}
    {n : ℕ} {σ' : HeapState} {b : Block} (hr : StackRepr σ bl st)
    (hm : Heap.malloc σ n = some (σ', b)) :
    StackRepr σ' (bl ++ [b]) (st ++ [⟨σ.wm, blockSize n, false⟩])
      ∧ b.addr = σ.wm := by
  unfold Heap.malloc at hm
  by_cases h1 : kMaxAllocSize < blockSize n - 4
  · rw [if_pos h1] at hm
    cases hm
  rw [if_neg h1] at hm
  by_cases h2 : σ.size - σ.wm < blockSize n
  · rw [if_pos h2] at hm
    cases hm
  rw [if_neg h2] at hm
  obtain ⟨hσ, hb⟩ := Prod.mk.injEq .. ▸ (Option.some.injEq .. ▸ hm)
  subst hσ
  subst hb
  obtain ⟨hbs4, hbsge, hbsn⟩ := blockSize_spec n
  have hwm := hr.wm_eq
  have hlay' : layoutOK kHeaderSize (st ++ [⟨σ.wm, blockSize n, false⟩]) := by
    refine layoutOK_append.mpr ⟨hr.layout, ?_⟩
    exact ⟨hwm, hbs4, hbsge, trivial⟩
  refine ⟨⟨hlay', ?_, ?_, ?_, ?_⟩, rfl⟩
  · show σ.wm + blockSize n = stackEnd kHeaderSize (st ++ [⟨σ.wm, blockSize n, false⟩])
    rw [stackEnd_concat, ← hwm]
  · intro p s hp
    show Function.update σ.mem ((σ.wm + blockSize n) / 4 - 1) σ.wm (sTag s)
      = s.addr + (if s.freed then 1 else 0)
    have hnewtag : sTag ⟨σ.wm, blockSize n, false⟩ = (σ.wm + blockSize n) / 4 - 1 := rfl
    by_cases hplen : p < st.length
    · rw [List.getElem?_append, if_pos hplen] at hp
      have hne : sTag s ≠ (σ.wm + blockSize n) / 4 - 1 := by
        rw [← hnewtag]
        refine @sTag_inj kHeaderSize _ hlay' (by decide) p st.length s
          ⟨σ.wm, blockSize n, false⟩ ?_ ?_ (by omega)
        · rw [List.getElem?_append, if_pos hplen]
          exact hp
        · exact List.getElem?_concat_length st _
      rw [Function.update_noteq hne]
      exact hr.tags p s hp
    · rw [List.getElem?_append, if_neg hplen] at hp
      have hp1 : p - st.length = 0 := by
        rcases Nat.eq_or_lt_of_le (Nat.le_of_not_lt hplen) with h | h
        · omega
        · exfalso
          have : p - st.length ≥ 1 := by omega
          rw [List.getElem?_eq_some] at hp
          obtain ⟨hlt, _⟩ := hp
          simp at hlt
          omega
      rw [hp1, List.getElem?_cons_zero, Option.some.injEq] at hp
      subst hp
      rw [← hnewtag, Function.update_same]
      rfl
  · intro s hs
    rw [List.getLast?_concat, Option.some.injEq] at hs
    rw [← hs]
  · show bl ++ [{ addr := σ.wm, size := blockSize n - 4 }]
      = liveBlocks (st ++ [⟨σ.wm, blockSize n, false⟩])
    have hlb : liveBlocks (st ++ [⟨σ.wm, blockSize n, false⟩])
        = liveBlocks st ++ [{ addr := σ.wm, size := blockSize n - 4 }] := by
      unfold liveBlocks
      rw [List.filter_append, List.map_append]
      rfl
    rw [hlb, ← hr.live_eq]

/-- `free` marks the corresponding stack entry.  Freeing the top block walks
the watermark down over the whole trailing run of freed entries (to the end
of the stripped stack); freeing an interior block leaves the watermark
unchanged. -/
theorem stackRepr_free {σ : HeapState} {bl : List Block} {st : List SBlock}
    (hr : StackRepr σ bl st) {i : ℕ} {b : Block} {σ' : HeapState}
    (hbi : bl[i]? = some b) (hf : Heap.free σ b = some σ') :
    ∃ p s, st[p]? = some s ∧ s.freed = false
      ∧ b = { addr := s.addr, size := s.bsize - 4 }
      ∧ (σ.wm = b.addr + b.size + 4 →
          StackRepr σ' (bl.eraseIdx i)
            (dropTrailingFreed (st.set p ⟨s.addr, s.bsize, true⟩))
          ∧ σ'.wm = stackEnd kHeaderSize
              (dropTrailingFreed (st.set p ⟨s.addr, s.bsize, true⟩)))
      ∧ (σ.wm ≠ b.addr + b.size + 4 →
          StackRepr σ' (bl.eraseIdx i) (st.set p ⟨s.addr, s.bsize, true⟩)
          ∧ σ'.wm = σ.wm) := by
  have hbi' := hbi
  rw [hr.live_eq] at hbi'
  unfold liveBlocks at hbi'
  rw [List.getElem?_map] at hbi'
  rcases hfi : (st.filter fun s => !s.freed)[i]? with _ | s
  · rw [hfi] at hbi'
    cases hbi'
  rw [hfi] at hbi'
  have hb : b = { addr := s.addr, size := s.bsize - 4 } := by
    simp only [Option.map_some', Option.some.injEq] at hbi'
    exact hbi'.symm
  have hsfreed : s.freed = false := by
    have hmem : s ∈ st.filter fun s => !s.freed := List.getElem?_mem hfi
    have := (List.mem_filter.mp hmem).2
    simpa using this
  obtain ⟨p, hp, hfe⟩ := filter_set_eraseIdx (fun s => !s.freed) st i s hfi
    ⟨s.addr, s.bsize, true⟩ (by rfl)
  have h16 : (kHeaderSize : ℕ) % 4 = 0 := by decide
  obtain ⟨hsal, hs4, hsge⟩ := layout_get_align hr.layout h16 hp
  obtain ⟨hsbase, hsend⟩ := layout_get_base hr.layout hp
  have hplen : p < st.length := (List.getElem?_eq_some.mp hp).1
  have hbaddr : b.addr = s.addr := by rw [hb]
  have hbsize : b.size = s.bsize - 4 := by rw [hb]
  have hpad : b.addr + b.size = s.addr + s.bsize - 4 := by
    rw [hbaddr, hbsize]
    omega
  have htagw : (b.addr + b.size) / 4 = sTag s := by
    unfold sTag
    rw [hpad]
    omega
  have hite0 : (if (false : Bool) = true then (1 : ℕ) else 0) = 0 := rfl
  have htag : σ.mem (sTag s) = s.addr := by
    have h := hr.tags p s hp
    rw [hsfreed, hite0, Nat.add_zero] at h
    exact h
  unfold Heap.free at hf
  have hguard : ¬ σ.mem ((b.addr + b.size) / 4) &&& 1 ≠ 0 := by
    rw [htagw, htag, Nat.and_one_is_mod]
    omega
  rw [if_neg hguard] at hf
  rw [htagw, htag] at hf
  have hlor2 : s.addr ||| 1 = s.addr + 1 := lor_one_of_even (by omega)
  rw [hlor2] at hf
  have hget1 : (st.set p ⟨s.addr, s.bsize, true⟩)[p]? = some ⟨s.addr, s.bsize, true⟩ :=
    List.getElem?_set_self hplen
  have hlen1 : (st.set p ⟨s.addr, s.bsize, true⟩).length = st.length :=
    List.length_set st p _
  have hlay1 : layoutOK kHeaderSize (st.set p ⟨s.addr, s.bsize, true⟩) :=
    layoutOK_set_same hr.layout hp rfl rfl
  have hend1 : stackEnd kHeaderSize (st.set p ⟨s.addr, s.bsize, true⟩)
      = stackEnd kHeaderSize st := stackEnd_set_same kHeaderSize hp rfl
  have hstageq : sTag (⟨s.addr, s.bsize, true⟩ : SBlock) = sTag s := rfl
  have hite1 : (if (true : Bool) = true then (1 : ℕ) else 0) = 1 := rfl
  have htags1 : ∀ (q : ℕ) (x : SBlock),
      (st.set p ⟨s.addr, s.bsize, true⟩)[q]? = some x →
      Function.update σ.mem (sTag s) (s.addr + 1) (sTag x)
        = x.addr + (if x.freed then 1 else 0) := by
    intro q x hq
    by_cases hqp : q = p
    · subst hqp
      rw [hget1, Option.some.injEq] at hq
      rw [← hq, hstageq, Function.update_same]
      show s.addr + 1 = s.addr + (if (true : Bool) = true then (1 : ℕ) else 0)
      rw [hite1]
    · rw [List.getElem?_set_ne (Ne.symm hqp)] at hq
      have hne : sTag x ≠ sTag s := sTag_inj hr.layout h16 hq hp hqp
      rw [Function.update_noteq hne]
      exact hr.tags q x hq
  have hlive1 : bl.eraseIdx i = liveBlocks (st.set p ⟨s.addr, s.bsize, true⟩) := by
    rw [hr.live_eq]
    unfold liveBlocks
    rw [← map_eraseIdx, hfe]
  by_cases htop : σ.wm = b.addr + b.size + 4
  · rw [if_pos htop] at hf
    obtain rfl := Option.some.injEq .. ▸ hf
    have hlast : p + 1 = st.length := by
      rw [← layout_last_iff hr.layout hp]
      have hw := hr.wm_eq
      omega
    have hget1last : (st.set p ⟨s.addr, s.bsize, true⟩).getLast?
        = some ⟨s.addr, s.bsize, true⟩ := by
      rw [List.getLast?_eq_getElem?, hlen1]
      have hidx : st.length - 1 = p := by omega
      rw [hidx]
      exact hget1
    have hdec : (st.set p ⟨s.addr, s.bsize, true⟩).dropLast ++ [⟨s.addr, s.bsize, true⟩]
        = st.set p ⟨s.addr, s.bsize, true⟩ := eq_concat_of_getLast hget1last
    have hlay2 : layoutOK kHeaderSize
        ((st.set p ⟨s.addr, s.bsize, true⟩).dropLast ++ [⟨s.addr, s.bsize, true⟩]) := by
      rw [hdec]
      exact hlay1
    obtain ⟨hlayf, hsf⟩ := layoutOK_append.mp hlay2
    obtain ⟨hfa, -, -, -⟩ := hsf
    have hfa' : s.addr
        = stackEnd kHeaderSize (st.set p ⟨s.addr, s.bsize, true⟩).dropLast := hfa
    have htagsf : ∀ (q : ℕ) (x : SBlock),
        (st.set p ⟨s.addr, s.bsize, true⟩).dropLast[q]? = some x →
        Function.update σ.mem (sTag s) (s.addr + 1) (sTag x)
          = x.addr + (if x.freed then 1 else 0) := by
      intro q x hq
      refine htags1 q x ?_
      rw [← hdec, List.getElem?_append, if_pos (List.getElem?_eq_some.mp hq).1]
      exact hq
    have hdtfeq : dropTrailingFreed (st.set p ⟨s.addr, s.bsize, true⟩)
        = dropTrailingFreed (st.set p ⟨s.addr, s.bsize, true⟩).dropLast := by
      conv_lhs => rw [← hdec]
      exact dtf_concat_freed rfl _
    have hws := walk_stack (Function.update σ.mem (sTag s) (s.addr + 1))
      (st.set p ⟨s.addr, s.bsize, true⟩).dropLast
      (stackEnd kHeaderSize (st.set p ⟨s.addr, s.bsize, true⟩).dropLast)
      hlayf htagsf (le_refl _)
    rw [← hfa'] at hws
    have hwres : Heap.findNewAllocOffset
          (Function.update σ.mem (sTag s) (s.addr + 1)) b.addr b.addr
        = stackEnd kHeaderSize
            (dropTrailingFreed (st.set p ⟨s.addr, s.bsize, true⟩)) := by
      rw [hdtfeq, hbaddr]
      exact hws
    obtain ⟨suf, hsufeq, hsuffreed⟩ := dtf_decomp (st.set p ⟨s.addr, s.bsize, true⟩)
    have hlay3 : layoutOK kHeaderSize
        (dropTrailingFreed (st.set p ⟨s.addr, s.bsize, true⟩) ++ suf) := by
      rw [← hsufeq]
      exact hlay1
    have hlaydtf := (layoutOK_append.mp hlay3).1
    have htagsdtf : ∀ (q : ℕ) (x : SBlock),
        (dropTrailingFreed (st.set p ⟨s.addr, s.bsize, true⟩))[q]? = some x →
        Function.update σ.mem (sTag s) (s.addr + 1) (sTag x)
          = x.addr + (if x.freed then 1 else 0) := by
      intro q x hq
      refine htags1 q x ?_
      rw [hsufeq, List.getElem?_append, if_pos (List.getElem?_eq_some.mp hq).1]
      exact hq
    have hlivedtf : liveBlocks (st.set p ⟨s.addr, s.bsize, true⟩)
        = liveBlocks (dropTrailingFreed (st.set p ⟨s.addr, s.bsize, true⟩)) := by
      unfold liveBlocks
      conv_lhs => rw [hsufeq]
      rw [List.filter_append]
      have hnil : List.filter (fun s => !s.freed) suf = [] := by
        rw [List.filter_eq_nil_iff]
        intro a ha
        simp [hsuffreed a ha]
      rw [hnil, List.append_nil]
    refine ⟨p, s, hp, hsfreed, hb, fun _ => ⟨⟨hlaydtf, hwres, htagsdtf,
      dtf_last_live _, hlive1.trans hlivedtf⟩, hwres⟩, fun h => absurd htop h⟩
  · rw [if_neg htop] at hf
    obtain rfl := Option.some.injEq .. ▸ hf
    refine ⟨p, s, hp, hsfreed, hb, fun h => absurd h htop,
      fun _ => ⟨⟨hlay1, ?_, htags1, ?_, hlive1⟩, rfl⟩⟩
    · show σ.wm = stackEnd kHeaderSize (st.set p ⟨s.addr, s.bsize, true⟩)
      rw [hend1]
      exact hr.wm_eq
    · intro x hx
      have hnotlast : p + 1 ≠ st.length := by
        intro hcon
        have hse := (layout_last_iff hr.layout hp).mpr hcon
        have hw := hr.wm_eq
        omega
      rw [List.getLast?_eq_getElem?, hlen1] at hx
      have hne : p ≠ st.length - 1 := by omega
      rw [List.getElem?_set_ne hne] at hx
      refine hr.top_live x ?_
      rw [List.getLast?_eq_getElem?]
      exact hx

/-- Restriction to allocate/free sequences (C6's scope). -/
def notShrink : Cmd → Bool
  | .shrink _ _ => false
  | _ => true

/-- Any allocate/free sequence leads to a state abstracted by some stack. -/
theorem stackRepr_run :
    ∀ (prog : List Cmd), (∀ c ∈ prog, notShrink c = true) →
      ∀ (start fin : HeapState × List Block) (st : List SBlock),
        StackRepr start.1 start.2 st → runProg start prog = some fin →
        ∃ st', StackRepr fin.1 fin.2 st' := by
  intro prog
  induction prog with
  | nil =>
    intro _ start fin st h hr
    simp only [runProg, List.foldlM_nil, Option.pure_def, Option.some.injEq] at hr
    subst hr
    exact ⟨st, h⟩
  | cons c rest ih =>
    intro hns start fin st h hr
    simp only [runProg, List.foldlM_cons] at hr
    rcases hstep : stepCmd start c with _ | mid
    · rw [hstep] at hr
      cases hr
    rw [hstep] at hr
    simp only [Option.bind_eq_bind, Option.some_bind] at hr
    have hnsrest : ∀ c ∈ rest, notShrink c = true :=
      fun c hc => hns c (List.mem_cons_of_mem _ hc)
    obtain ⟨σ0, bl0⟩ := start
    cases c with
    | alloc n =>
      simp only [stepCmd, Option.map_eq_some'] at hstep
      obtain ⟨⟨σ2, b⟩, hm, rfl⟩ := hstep
      exact ih hnsrest _ fin _ (stackRepr_malloc h hm).1 hr
    | free j =>
      simp only [stepCmd] at hstep
      rcases hbj : bl0[j]? with _ | b
      · rw [hbj] at hstep
        cases hstep
      rw [hbj] at hstep
      simp only [Option.map_eq_some'] at hstep
      obtain ⟨σ2, hfr, rfl⟩ := hstep
      obtain ⟨p, s, hp, hsf, hbb, htop, hntop⟩ := stackRepr_free h hbj hfr
      by_cases hw : σ0.wm = b.addr + b.size + 4
      · exact ih hnsrest _ fin _ (htop hw).1 hr
      · exact ih hnsrest _ fin _ (hntop hw).1 hr
    | shrink j n =>
      have := hns _ (List.mem_cons_self _ _)
      simp [notShrink] at this

/-- The fresh heap is abstracted by the empty stack. -/
theorem stackRepr_init (S : ℕ) : StackRepr (Heap.heapNew S) [] [] := by
  refine ⟨trivial, rfl, ?_, ?_, rfl⟩
  · intro p s hp
    simp at hp
  · intro s hs
    cases hs

/-- C6: on any heap reached by a sequence of allocations and frees, every
allocation returns the current watermark as the block address, and the
reached state is abstracted by an allocation stack `st` such that freeing
any registered block `b` marks its entry `s`; if `b` is at the top
(`watermark = address + payload + 4`) the new watermark is the layout
position of the stripped stack — the walk drops the whole contiguous
trailing run of freed entries, restoring the watermark the heap had when
the bottom-most entry of that run was allocated — and if `b` is interior
the watermark is unchanged. -/
theorem C6_free_watermark_walk (S : ℕ) (σ0 : HeapState) (prog : List Cmd)
    (σ : HeapState) (bl : List Block)
    (hinit : Heap.initOpt S = some σ0)
    (hrun : runProg (σ0, []) prog = some (σ, bl))
    (hns : ∀ c ∈ prog, notShrink c = true) :
    (∀ (σa : HeapState) (m : ℕ) (σb : HeapState) (b : Block),
        Heap.malloc σa m = some (σb, b) → b.addr = σa.wm)
    ∧ ∃ st, StackRepr σ bl st
        ∧ ∀ (i : ℕ) (b : Block) (σ2 : HeapState), bl[i]? = some b →
            Heap.free σ b = some σ2 →
            ∃ p s, st[p]? = some s ∧ s.freed = false ∧ b.addr = s.addr
              ∧ (σ.wm = b.addr + b.size + 4 →
                  σ2.wm = stackEnd kHeaderSize
                    (dropTrailingFreed (st.set p ⟨s.addr, s.bsize, true⟩)))
              ∧ (σ.wm ≠ b.addr + b.size + 4 → σ2.wm = σ.wm) := by
  obtain rfl := initOpt_eq hinit
  refine ⟨?_, ?_⟩
  · intro σa m σb b hm
    unfold Heap.malloc at hm
    by_cases h1 : kMaxAllocSize < blockSize m - 4
    · rw [if_pos h1] at hm
      cases hm
    rw [if_neg h1] at hm
    by_cases h2 : σa.size - σa.wm < blockSize m
    · rw [if_pos h2] at hm
      cases hm
    rw [if_neg h2] at hm
    obtain ⟨-, hb⟩ := Prod.mk.injEq .. ▸ (Option.some.injEq .. ▸ hm)
    rw [← hb]
  · obtain ⟨st, hrep⟩ := stackRepr_run prog hns (Heap.heapNew S, []) (σ, bl) []
      (stackRepr_init S) hrun
    refine ⟨st, hrep, ?_⟩
    intro i b σ2 hbi hf
    obtain ⟨p, s, hp, hsf, hbb, htop, hntop⟩ := stackRepr_free hrep hbi hf
    refine ⟨p, s, hp, hsf, by rw [hbb], ?_, ?_⟩
    · intro hw
      exact (htop hw).2
    · intro hw
      exact (hntop hw).2

/-- Witness for `C6_free_watermark_walk`: a 64-byte heap on which three
4-byte blocks are allocated (addresses 16, 24, 32) and the middle one is
freed — an interior free, so the watermark stays 40; the reached state then
satisfies every conjunct of the theorem. -/
theorem C6_free_watermark_walk_witness :
    ∃ σ bl,
      Heap.initOpt 64 = some (Heap.heapNew 64)
      ∧ runProg (Heap.heapNew 64, []) [.alloc 4, .alloc 4, .alloc 4, .free 1]
          = some (σ, bl)
      ∧ ((∀ (σa : HeapState) (m : ℕ) (σb : HeapState) (b : Block),
            Heap.malloc σa m = some (σb, b) → b.addr = σa.wm)
        ∧ ∃ st, StackRepr σ bl st
            ∧ ∀ (i : ℕ) (b : Block) (σ2 : HeapState), bl[i]? = some b →
                Heap.free σ b = some σ2 →
                ∃ p s, st[p]? = some s ∧ s.freed = false ∧ b.addr = s.addr
                  ∧ (σ.wm = b.addr + b.size + 4 →
                      σ2.wm = stackEnd kHeaderSize
                        (dropTrailingFreed (st.set p ⟨s.addr, s.bsize, true⟩)))
                  ∧ (σ.wm ≠ b.addr + b.size + 4 → σ2.wm = σ.wm)) := by
  refine ⟨_, _, rfl, rfl, ?_⟩
  exact C6_free_watermark_walk 64 (Heap.heapNew 64)
    [.alloc 4, .alloc 4, .alloc 4, .free 1] _ _ rfl rfl (by decide)

end Kruda
